import Mathlib

/-!
# Block-list model of the contiguous memory allocator (`src/allocator.c`)

The C program keeps a singly linked list of `MemoryBlock` nodes covering one
arena obtained from `malloc`.  The list is embedded as a Lean `List`, a node
pointer as the index of the node in that list, and the three globals
(`memory_start`, `total_memory_size`, `memory_list`) as an explicit `State`.

Conventions of the embedding:

* `uintptr_t` and `size_t` are 64-bit unsigned words.  They are carried as
  `Nat`; every addition the program performs is reduced with `wrap`
  (modulo `2 ^ 64`).  A subtraction is written as truncated `Nat` subtraction
  only where the program guards it so that it cannot underflow.
* `allocated` is an `int` that the program only ever sets to `0` or `1`; it is
  a `Bool` here.
* `process_id` is a NUL-terminated C string compared with `strcmp`; it is a
  `String` here, compared with `=`.  The field is `char process_id[10]` and
  `allocate_memory` fills it with an unchecked `strcpy`; the embedding stores the
  owner whole, so it follows the program only for owners that fit the field
  (`owner_fits`: at most 9 bytes and the terminating NUL).  Statements about
  sequences of calls carry that bound for the owners they allocate to.
* The text a function prints is its `Report`.
* `malloc` of a list node is taken to succeed; the arena `malloc` of
  `initialize_memory` is a parameter of the model.
-/

namespace Allocator

/-- Largest value of `size_t` (`SIZE_MAX` of `<stdint.h>`, 64-bit target). -/
def SIZE_MAX : Nat := 2 ^ 64 - 1

/-- Result of an unsigned 64-bit operation whose exact value is `x`. -/
def wrap (x : Nat) : Nat := x % 2 ^ 64

/-- One node of the list: `struct MemoryBlock` without its `next` link. -/
structure MemoryBlock where
  start_address : Nat
  size : Nat
  allocated : Bool
  process_id : String
deriving DecidableEq

/-- What a call prints: the success line or the error line. -/
inductive Report where
  | allocated (size : Nat) (process_id : String) (address : Nat)
  | invalid_strategy (strategy : Char)
  | not_enough_memory (size : Nat) (process_id : String)
  | released (process_id : String) (address : Nat) (size : Nat)
  | not_found (process_id : String)
deriving DecidableEq

/-- Loop of `find_first_fit`: `i` is the position of `current` in the whole list. -/
def find_first_fit_from : List MemoryBlock → Nat → Nat → Option Nat
  | [], _, _ => none
  | current :: rest, size, i =>
    if current.allocated = false ∧ size ≤ current.size then some i
    else find_first_fit_from rest size (i + 1)

/-- The function `find_first_fit`: position of the returned node, `none` for `NULL`. -/
def find_first_fit (memory_list : List MemoryBlock) (size : Nat) : Option Nat :=
  find_first_fit_from memory_list size 0

/-- Loop of `find_best_fit` with its two locals `best_fit` and `min_diff`.
The subtraction is guarded by `current->size >= size`. -/
def find_best_fit_from : List MemoryBlock → Nat → Nat → Option Nat → Nat → Option Nat
  | [], _, _, best_fit, _ => best_fit
  | current :: rest, size, i, best_fit, min_diff =>
    if current.allocated = false ∧ size ≤ current.size then
      if current.size - size < min_diff then
        find_best_fit_from rest size (i + 1) (some i) (current.size - size)
      else find_best_fit_from rest size (i + 1) best_fit min_diff
    else find_best_fit_from rest size (i + 1) best_fit min_diff

/-- The function `find_best_fit`: `best_fit = NULL`, `min_diff = SIZE_MAX` on entry. -/
def find_best_fit (memory_list : List MemoryBlock) (size : Nat) : Option Nat :=
  find_best_fit_from memory_list size 0 none SIZE_MAX

/-- Loop of `find_worst_fit` with its two locals `worst_fit` and `max_size`. -/
def find_worst_fit_from : List MemoryBlock → Nat → Nat → Option Nat → Nat → Option Nat
  | [], _, _, worst_fit, _ => worst_fit
  | current :: rest, size, i, worst_fit, max_size =>
    if current.allocated = false ∧ size ≤ current.size then
      if max_size < current.size then
        find_worst_fit_from rest size (i + 1) (some i) current.size
      else find_worst_fit_from rest size (i + 1) worst_fit max_size
    else find_worst_fit_from rest size (i + 1) worst_fit max_size

/-- The function `find_worst_fit`: `worst_fit = NULL`, `max_size = 0` on entry. -/
def find_worst_fit (memory_list : List MemoryBlock) (size : Nat) : Option Nat :=
  find_worst_fit_from memory_list size 0 none 0

/-- Strategy dispatch at the head of `allocate_memory`: `none` is the
invalid-strategy branch, `some p` the pointer the chosen finder returned. -/
def select_fit (memory_list : List MemoryBlock) (size : Nat) (strategy : Char) :
    Option (Option Nat) :=
  if strategy = 'F' then some (find_first_fit memory_list size)
  else if strategy = 'B' then some (find_best_fit memory_list size)
  else if strategy = 'W' then some (find_worst_fit memory_list size)
  else none

/-- The node `free_block` as `allocate_memory` leaves it: allocated, resized, owned. -/
def claim_block (free_block : MemoryBlock) (process_id : String) (size : Nat) : MemoryBlock :=
  { free_block with allocated := true, size := size, process_id := process_id }

/-- Size of the field `char process_id[10]` of `struct MemoryBlock`. -/
def PROCESS_ID_SIZE : Nat := 10

/-- Number of bytes `strcpy` writes for an owner id: its bytes and the
terminating NUL. -/
def strcpy_bytes (process_id : String) : Nat :=
  process_id.utf8ByteSize + 1

/-- The `strcpy` of `allocate_memory` into `free_block->process_id` stays inside
the field. -/
def owner_fits (process_id : String) : Prop :=
  strcpy_bytes process_id ≤ PROCESS_ID_SIZE

instance (process_id : String) : Decidable (owner_fits process_id) := by
  unfold owner_fits
  infer_instance

/-- The node `new_block` that `allocate_memory` links in after `free_block` on a split.
The subtraction is guarded by `free_block->size > size`. -/
def remainder_block (free_block : MemoryBlock) (size : Nat) : MemoryBlock :=
  { start_address := wrap (free_block.start_address + size),
    size := free_block.size - size,
    allocated := false,
    process_id := "" }

/-- Body of `allocate_memory` once `free_block` points at position `i`:
split when the block is larger than needed, then claim the block. -/
def allocate_at : List MemoryBlock → Nat → String → Nat → List MemoryBlock
  | [], _, _, _ => []
  | free_block :: rest, 0, process_id, size =>
    if size < free_block.size then
      claim_block free_block process_id size :: remainder_block free_block size :: rest
    else claim_block free_block process_id size :: rest
  | block :: rest, i + 1, process_id, size =>
    block :: allocate_at rest i process_id size

/-- The function `allocate_memory`: the report and the list afterwards.
The inner `none` branch is dead code of the model: a finder only ever returns a
position of the list (`select_fit_sound`). -/
def allocate_memory (memory_list : List MemoryBlock) (process_id : String) (size : Nat)
    (strategy : Char) : Report × List MemoryBlock :=
  match select_fit memory_list size strategy with
  | none => (Report.invalid_strategy strategy, memory_list)
  | some none => (Report.not_enough_memory size process_id, memory_list)
  | some (some i) =>
    match memory_list[i]? with
    | none => (Report.not_enough_memory size process_id, memory_list)
    | some free_block =>
      (Report.allocated size process_id free_block.start_address,
       allocate_at memory_list i process_id size)

/-- The nodes `prev` (if any) and `current` after the first merge step of
`release_memory`: `current` has just been marked free. -/
def merge_prev (prev : Option MemoryBlock) (current : MemoryBlock) :
    List MemoryBlock × MemoryBlock :=
  match prev with
  | none => ([], current)
  | some p =>
    if p.allocated = false then ([], { p with size := wrap (p.size + current.size) })
    else ([p], current)

/-- Second merge step of `release_memory`: `current` followed by the rest of the list. -/
def merge_next (current : MemoryBlock) : List MemoryBlock → List MemoryBlock
  | [] => [current]
  | next :: rest =>
    if next.allocated = false then
      { current with size := wrap (current.size + next.size) } :: rest
    else current :: next :: rest

/-- Loop of `release_memory` with its locals `prev` and `current` (the head of
the second argument).  On a match the result is the report and the nodes that
replace `prev` and everything from `current` on; `none` means the loop ran off
the end of the list. -/
def release_from (process_id : String) :
    Option MemoryBlock → List MemoryBlock → Option (Report × List MemoryBlock)
  | _, [] => none
  | prev, current :: rest =>
    if current.allocated = true ∧ current.process_id = process_id then
      let freed : MemoryBlock := { current with allocated := false, process_id := "" }
      let merged := merge_prev prev freed
      some (Report.released process_id current.start_address current.size,
            merged.1 ++ merge_next merged.2 rest)
    else
      match release_from process_id (some current) rest with
      | none => none
      | some (report, replaced) => some (report, prev.toList ++ replaced)

/-- The function `release_memory`: the report and the list afterwards. -/
def release_memory (memory_list : List MemoryBlock) (process_id : String) :
    Report × List MemoryBlock :=
  match release_from process_id none memory_list with
  | none => (Report.not_found process_id, memory_list)
  | some result => result

/-- First pass of `compact_memory`: the new list of allocated blocks and the
final value of `current_address`. -/
def compact_from : List MemoryBlock → Nat → List MemoryBlock × Nat
  | [], current_address => ([], current_address)
  | current :: rest, current_address =>
    if current.allocated = true then
      let moved : MemoryBlock :=
        { start_address := current_address, size := current.size,
          allocated := true, process_id := current.process_id }
      let tail := compact_from rest (wrap (current_address + current.size))
      (moved :: tail.1, tail.2)
    else compact_from rest current_address

/-- The function `compact_memory`.  The size of the trailing free block is
`memory_start + total_memory_size - current_address`, guarded by
`current_address < memory_start + total_memory_size`. -/
def compact_memory (memory_start total_memory_size : Nat) (memory_list : List MemoryBlock) :
    List MemoryBlock :=
  let pass := compact_from memory_list memory_start
  if pass.2 < wrap (memory_start + total_memory_size) then
    pass.1 ++ [{ start_address := pass.2,
                 size := wrap (memory_start + total_memory_size) - pass.2,
                 allocated := false, process_id := "" }]
  else pass.1

/-- The three globals of the program. -/
structure State where
  memory_start : Nat
  total_memory_size : Nat
  memory_list : List MemoryBlock
deriving DecidableEq

/-- The function `initialize_memory`; `arena` is what `malloc(size)` returned.
A null arena makes the program exit, which is `none`. -/
def initialize_memory (arena : Nat) (size : Nat) : Option State :=
  if arena = 0 then none
  else some { memory_start := arena, total_memory_size := size,
              memory_list := [{ start_address := arena, size := size,
                                allocated := false, process_id := "" }] }

/-- A call made by the command loop of `main`: `RQ`, `RL` or `C`. -/
inductive Call where
  | RQ (process_id : String) (size : Nat) (strategy : Char)
  | RL (process_id : String)
  | C
deriving DecidableEq

/-- Effect of one call on the globals. -/
def step (s : State) : Call → State
  | Call.RQ process_id size strategy =>
    { s with memory_list := (allocate_memory s.memory_list process_id size strategy).2 }
  | Call.RL process_id =>
    { s with memory_list := (release_memory s.memory_list process_id).2 }
  | Call.C =>
    { s with memory_list := compact_memory s.memory_start s.total_memory_size s.memory_list }

/-- Effect of a sequence of calls, first to last. -/
def run (s : State) (calls : List Call) : State :=
  calls.foldl step s

/-! ## Predicates used in the statements -/

/-- A block that can serve a request of `size` bytes: free and large enough. -/
def Fits (size : Nat) (b : MemoryBlock) : Prop :=
  b.allocated = false ∧ size ≤ b.size

instance (size : Nat) (b : MemoryBlock) : Decidable (Fits size b) := by
  unfold Fits
  infer_instance

/-- A free block of the given extent. -/
def free_at (start size : Nat) : MemoryBlock :=
  { start_address := start, size := size, allocated := false, process_id := "" }

/-- An allocated block of the given extent and owner. -/
def owned_at (start size : Nat) (process_id : String) : MemoryBlock :=
  { start_address := start, size := size, allocated := true, process_id := process_id }

/-! ## The three finders -/

theorem find_first_fit_from_spec (size : Nat) : ∀ (l : List MemoryBlock) (i : Nat),
    (find_first_fit_from l size i = none ∧ ∀ b ∈ l, ¬ Fits size b) ∨
    (∃ k c, find_first_fit_from l size i = some (i + k) ∧ l[k]? = some c ∧ Fits size c ∧
      ∀ j b, j < k → l[j]? = some b → ¬ Fits size b) := by
  intro l
  induction l with
  | nil => intro i; left; simp [find_first_fit_from]
  | cons cur rest ih =>
    intro i
    simp only [find_first_fit_from]
    split_ifs with h
    · right
      exact ⟨0, cur, rfl, by simp, h, fun j b hj => absurd hj (Nat.not_lt_zero j)⟩
    · rcases ih (i + 1) with ⟨e, hall⟩ | ⟨k, c, e, hk, hf, hearly⟩
      · left
        refine ⟨e, ?_⟩
        intro b hb
        rcases List.mem_cons.mp hb with rfl | hb
        · exact h
        · exact hall b hb
      · right
        refine ⟨k + 1, c, ?_, ?_, hf, ?_⟩
        · rw [e]; congr 1; omega
        · simpa using hk
        · intro j b hj hb
          cases j with
          | zero =>
            simp at hb
            subst hb
            exact h
          | succ j =>
            simp at hb
            exact hearly j b (by omega) hb

theorem find_best_fit_from_spec (size : Nat) :
    ∀ (l : List MemoryBlock) (i : Nat) (best_fit : Option Nat) (min_diff : Nat),
    (find_best_fit_from l size i best_fit min_diff = best_fit ∧
      ∀ b ∈ l, Fits size b → min_diff ≤ b.size - size) ∨
    (∃ k c, find_best_fit_from l size i best_fit min_diff = some (i + k) ∧ l[k]? = some c ∧
      Fits size c ∧ c.size - size < min_diff ∧
      (∀ b ∈ l, Fits size b → c.size - size ≤ b.size - size) ∧
      ∀ j b, j < k → l[j]? = some b → Fits size b → c.size - size < b.size - size) := by
  intro l
  induction l with
  | nil => intro i best_fit min_diff; left; simp [find_best_fit_from]
  | cons cur rest ih =>
    intro i best_fit min_diff
    simp only [find_best_fit_from]
    split_ifs with h1 h2
    · rcases ih (i + 1) (some i) (cur.size - size) with
        ⟨e, hall⟩ | ⟨k, c, e, hk, hf, hlt, hmin, hearly⟩
      · right
        refine ⟨0, cur, by simpa using e, by simp, h1, h2, ?_,
          fun j b hj => absurd hj (Nat.not_lt_zero j)⟩
        intro b hb hfb
        rcases List.mem_cons.mp hb with rfl | hb
        · exact le_refl _
        · exact hall b hb hfb
      · right
        refine ⟨k + 1, c, ?_, by simpa using hk, hf, by omega, ?_, ?_⟩
        · rw [e]; congr 1; omega
        · intro b hb hfb
          rcases List.mem_cons.mp hb with rfl | hb
          · omega
          · exact hmin b hb hfb
        · intro j b hj hb hfb
          cases j with
          | zero =>
            simp at hb
            subst hb
            exact hlt
          | succ j =>
            simp at hb
            exact hearly j b (by omega) hb hfb
    · rcases ih (i + 1) best_fit min_diff with
        ⟨e, hall⟩ | ⟨k, c, e, hk, hf, hlt, hmin, hearly⟩
      · left
        refine ⟨e, ?_⟩
        intro b hb hfb
        rcases List.mem_cons.mp hb with rfl | hb
        · omega
        · exact hall b hb hfb
      · right
        refine ⟨k + 1, c, ?_, by simpa using hk, hf, hlt, ?_, ?_⟩
        · rw [e]; congr 1; omega
        · intro b hb hfb
          rcases List.mem_cons.mp hb with rfl | hb
          · omega
          · exact hmin b hb hfb
        · intro j b hj hb hfb
          cases j with
          | zero =>
            simp at hb
            subst hb
            omega
          | succ j =>
            simp at hb
            exact hearly j b (by omega) hb hfb
    · rcases ih (i + 1) best_fit min_diff with
        ⟨e, hall⟩ | ⟨k, c, e, hk, hf, hlt, hmin, hearly⟩
      · left
        refine ⟨e, ?_⟩
        intro b hb hfb
        rcases List.mem_cons.mp hb with rfl | hb
        · exact absurd hfb h1
        · exact hall b hb hfb
      · right
        refine ⟨k + 1, c, ?_, by simpa using hk, hf, hlt, ?_, ?_⟩
        · rw [e]; congr 1; omega
        · intro b hb hfb
          rcases List.mem_cons.mp hb with rfl | hb
          · exact absurd hfb h1
          · exact hmin b hb hfb
        · intro j b hj hb hfb
          cases j with
          | zero =>
            simp at hb
            subst hb
            exact absurd hfb h1
          | succ j =>
            simp at hb
            exact hearly j b (by omega) hb hfb

theorem find_worst_fit_from_spec (size : Nat) :
    ∀ (l : List MemoryBlock) (i : Nat) (worst_fit : Option Nat) (max_size : Nat),
    (find_worst_fit_from l size i worst_fit max_size = worst_fit ∧
      ∀ b ∈ l, Fits size b → b.size ≤ max_size) ∨
    (∃ k c, find_worst_fit_from l size i worst_fit max_size = some (i + k) ∧ l[k]? = some c ∧
      Fits size c ∧ max_size < c.size ∧
      (∀ b ∈ l, Fits size b → b.size ≤ c.size) ∧
      ∀ j b, j < k → l[j]? = some b → Fits size b → b.size < c.size) := by
  intro l
  induction l with
  | nil => intro i worst_fit max_size; left; simp [find_worst_fit_from]
  | cons cur rest ih =>
    intro i worst_fit max_size
    simp only [find_worst_fit_from]
    split_ifs with h1 h2
    · rcases ih (i + 1) (some i) cur.size with
        ⟨e, hall⟩ | ⟨k, c, e, hk, hf, hlt, hmax, hearly⟩
      · right
        refine ⟨0, cur, by simpa using e, by simp, h1, h2, ?_,
          fun j b hj => absurd hj (Nat.not_lt_zero j)⟩
        intro b hb hfb
        rcases List.mem_cons.mp hb with rfl | hb
        · exact le_refl _
        · exact hall b hb hfb
      · right
        refine ⟨k + 1, c, ?_, by simpa using hk, hf, by omega, ?_, ?_⟩
        · rw [e]; congr 1; omega
        · intro b hb hfb
          rcases List.mem_cons.mp hb with rfl | hb
          · omega
          · exact hmax b hb hfb
        · intro j b hj hb hfb
          cases j with
          | zero =>
            simp at hb
            subst hb
            exact hlt
          | succ j =>
            simp at hb
            exact hearly j b (by omega) hb hfb
    · rcases ih (i + 1) worst_fit max_size with
        ⟨e, hall⟩ | ⟨k, c, e, hk, hf, hlt, hmax, hearly⟩
      · left
        refine ⟨e, ?_⟩
        intro b hb hfb
        rcases List.mem_cons.mp hb with rfl | hb
        · omega
        · exact hall b hb hfb
      · right
        refine ⟨k + 1, c, ?_, by simpa using hk, hf, hlt, ?_, ?_⟩
        · rw [e]; congr 1; omega
        · intro b hb hfb
          rcases List.mem_cons.mp hb with rfl | hb
          · omega
          · exact hmax b hb hfb
        · intro j b hj hb hfb
          cases j with
          | zero =>
            simp at hb
            subst hb
            omega
          | succ j =>
            simp at hb
            exact hearly j b (by omega) hb hfb
    · rcases ih (i + 1) worst_fit max_size with
        ⟨e, hall⟩ | ⟨k, c, e, hk, hf, hlt, hmax, hearly⟩
      · left
        refine ⟨e, ?_⟩
        intro b hb hfb
        rcases List.mem_cons.mp hb with rfl | hb
        · exact absurd hfb h1
        · exact hall b hb hfb
      · right
        refine ⟨k + 1, c, ?_, by simpa using hk, hf, hlt, ?_, ?_⟩
        · rw [e]; congr 1; omega
        · intro b hb hfb
          rcases List.mem_cons.mp hb with rfl | hb
          · exact absurd hfb h1
          · exact hmax b hb hfb
        · intro j b hj hb hfb
          cases j with
          | zero =>
            simp at hb
            subst hb
            exact absurd hfb h1
          | succ j =>
            simp at hb
            exact hearly j b (by omega) hb hfb

/-- C3. For every block list and request size, `find_first_fit` returns position `k`
exactly when block `k` is the earliest block in list order that is free with
size at least the request, and it returns `none` exactly when no free block has
size at least the request.  On free blocks of sizes 20, 50, 10 (any addresses)
and request 10 it returns the 20-block. -/
theorem find_first_fit_earliest (l : List MemoryBlock) (size : Nat) :
    (∀ k, find_first_fit l size = some k ↔
      ∃ c, l[k]? = some c ∧ Fits size c ∧
        ∀ j b, j < k → l[j]? = some b → ¬ Fits size b) ∧
    (find_first_fit l size = none ↔ ∀ b ∈ l, ¬ Fits size b) ∧
    (∀ a₁ a₂ a₃ : Nat,
      find_first_fit [free_at a₁ 20, free_at a₂ 50, free_at a₃ 10] 10 = some 0) := by
  have hspec := find_first_fit_from_spec size l 0
  refine ⟨?_, ?_, ?_⟩
  · intro k
    constructor
    · intro hk
      rcases hspec with ⟨e, _⟩ | ⟨k0, c, e, hc, hf, hearly⟩
      · rw [find_first_fit, e] at hk
        exact absurd hk (by simp)
      · rw [find_first_fit, e] at hk
        have hk0 : k0 = k := by simpa using hk
        subst hk0
        exact ⟨c, hc, hf, hearly⟩
    · rintro ⟨c, hc, hf, hearly⟩
      rcases hspec with ⟨_, hall⟩ | ⟨k0, c0, e, hc0, hf0, hearly0⟩
      · exact absurd hf (hall c (List.getElem?_mem hc))
      · have hk0 : k0 = k := by
          rcases Nat.lt_trichotomy k0 k with hlt | heq | hgt
          · exact absurd hf0 (hearly k0 c0 hlt hc0)
          · exact heq
          · exact absurd hf (hearly0 k c hgt hc)
        subst hk0
        rw [find_first_fit, e]
        simp
  · constructor
    · intro hn
      rcases hspec with ⟨_, hall⟩ | ⟨k0, c, e, _, _, _⟩
      · exact hall
      · rw [find_first_fit, e] at hn
        exact absurd hn (by simp)
    · intro hall
      rcases hspec with ⟨e, _⟩ | ⟨k0, c, _, hc, hf, _⟩
      · exact e
      · exact absurd hf (hall c (List.getElem?_mem hc))
  · intro a₁ a₂ a₃
    simp [find_first_fit, find_first_fit_from, free_at]

/-- C4. For every block list the program can hold and every request size,
`find_best_fit` returns position `k` exactly when block `k` is free with size at
least the request, its `size - request` is minimal among all such blocks, and
every earlier such block has a strictly larger `size - request`; it returns
`none` exactly when no free block has size at least the request.  On free
blocks of sizes 20, 50, 10 and request 10 it returns the 10-block.
The hypothesis says that `size - request` of a fitting block stays below
`SIZE_MAX`, the initial `min_diff`; it holds for every request on every list
that tiles an arena with a non-null base below `2 ^ 64`
(`fits_below_sentinel_of_tiles`), hence in every state of a run
(`run_fits_below_sentinel`). -/
theorem find_best_fit_earliest_minimal (l : List MemoryBlock) (size : Nat)
    (h : ∀ b ∈ l, Fits size b → b.size - size < SIZE_MAX) :
    (∀ k, find_best_fit l size = some k ↔
      ∃ c, l[k]? = some c ∧ Fits size c ∧
        (∀ b ∈ l, Fits size b → c.size - size ≤ b.size - size) ∧
        ∀ j b, j < k → l[j]? = some b → Fits size b → c.size - size < b.size - size) ∧
    (find_best_fit l size = none ↔ ∀ b ∈ l, ¬ Fits size b) ∧
    (∀ a₁ a₂ a₃ : Nat,
      find_best_fit [free_at a₁ 20, free_at a₂ 50, free_at a₃ 10] 10 = some 2) := by
  have hspec := find_best_fit_from_spec size l 0 none SIZE_MAX
  refine ⟨?_, ?_, ?_⟩
  · intro k
    constructor
    · intro hk
      rcases hspec with ⟨e, _⟩ | ⟨k0, c, e, hc, hf, _, hmin, hearly⟩
      · rw [find_best_fit, e] at hk
        exact absurd hk (by simp)
      · rw [find_best_fit, e] at hk
        have hk0 : k0 = k := by simpa using hk
        subst hk0
        exact ⟨c, hc, hf, hmin, hearly⟩
    · rintro ⟨c, hc, hf, hmin, hearly⟩
      rcases hspec with ⟨_, hall⟩ | ⟨k0, c0, e, hc0, hf0, _, hmin0, hearly0⟩
      · have h1 := hall c (List.getElem?_mem hc) hf
        have h2 := h c (List.getElem?_mem hc) hf
        omega
      · have hk0 : k0 = k := by
          rcases Nat.lt_trichotomy k0 k with hlt | heq | hgt
          · have h1 := hearly k0 c0 hlt hc0 hf0
            have h2 := hmin0 c (List.getElem?_mem hc) hf
            omega
          · exact heq
          · have h1 := hearly0 k c hgt hc hf
            have h2 := hmin c0 (List.getElem?_mem hc0) hf0
            omega
        subst hk0
        rw [find_best_fit, e]
        simp
  · constructor
    · intro hn
      rcases hspec with ⟨_, hall⟩ | ⟨k0, c, e, _, _, _, _, _⟩
      · intro b hb hfb
        have h1 := hall b hb hfb
        have h2 := h b hb hfb
        omega
      · rw [find_best_fit, e] at hn
        exact absurd hn (by simp)
    · intro hall
      rcases hspec with ⟨e, _⟩ | ⟨k0, c, _, hc, hf, _, _, _⟩
      · exact e
      · exact absurd hf (hall c (List.getElem?_mem hc))
  · intro a₁ a₂ a₃
    simp [find_best_fit, find_best_fit_from, free_at, SIZE_MAX]

/-- C4 at a concrete list: three free blocks of sizes 20, 50, 10 and request 10. -/
theorem find_best_fit_earliest_minimal_witness :
    (∀ b ∈ [free_at 0 20, free_at 20 50, free_at 70 10], Fits 10 b → b.size - 10 < SIZE_MAX) ∧
    (find_best_fit [free_at 0 20, free_at 20 50, free_at 70 10] 10 = none ↔
      ∀ b ∈ [free_at 0 20, free_at 20 50, free_at 70 10], ¬ Fits 10 b) :=
  ⟨by decide,
   (find_best_fit_earliest_minimal [free_at 0 20, free_at 20 50, free_at 70 10] 10
      (by decide)).2.1⟩

/-- Why `find_best_fit_earliest_minimal` has its hypothesis: on a hand-built
list with a free block of `SIZE_MAX` bytes, which no arena can hold, a request
of 0 bytes makes `size - request` equal to the initial `min_diff`, and
`find_best_fit` returns `none`. -/
theorem find_best_fit_sentinel_edge :
    find_best_fit [free_at 0 SIZE_MAX] 0 = none ∧
    free_at 0 SIZE_MAX ∈ [free_at 0 SIZE_MAX] ∧ Fits 0 (free_at 0 SIZE_MAX) := by
  decide

/-- Worst fit, as the code has it: when some free block large enough for the
request has a non-zero size, `find_worst_fit` returns position `k` exactly when
block `k` is free with size at least the request, its size is maximal among all
such blocks, and every earlier such block is strictly smaller. -/
theorem find_worst_fit_spec (l : List MemoryBlock) (size : Nat) :
    (∀ k, find_worst_fit l size = some k →
      ∃ c, l[k]? = some c ∧ Fits size c ∧ 0 < c.size ∧
        (∀ b ∈ l, Fits size b → b.size ≤ c.size) ∧
        ∀ j b, j < k → l[j]? = some b → Fits size b → b.size < c.size) ∧
    (find_worst_fit l size = none ↔ ∀ b ∈ l, Fits size b → b.size = 0) := by
  have hspec := find_worst_fit_from_spec size l 0 none 0
  refine ⟨?_, ?_⟩
  · intro k hk
    rcases hspec with ⟨e, _⟩ | ⟨k0, c, e, hc, hf, hpos, hmax, hearly⟩
    · rw [find_worst_fit, e] at hk
      exact absurd hk (by simp)
    · rw [find_worst_fit, e] at hk
      have hk0 : k0 = k := by simpa using hk
      subst hk0
      exact ⟨c, hc, hf, hpos, hmax, hearly⟩
  · constructor
    · intro hn
      rcases hspec with ⟨_, hall⟩ | ⟨k0, c, e, _, _, _, _, _⟩
      · intro b hb hfb
        have h1 := hall b hb hfb
        omega
      · rw [find_worst_fit, e] at hn
        exact absurd hn (by simp)
    · intro hall
      rcases hspec with ⟨e, _⟩ | ⟨k0, c, _, hc, hf, hpos, _, _⟩
      · exact e
      · have h1 := hall c (List.getElem?_mem hc) hf
        omega

/-- C5 at a state the program reaches.  From a 100-byte arena the calls
`RQ A 10 F`, `RQ Z 0 F`, `RQ B 90 F`, `RL Z` leave a free block of size 0
between two allocated blocks.  That block is free and large enough for a
request of 0 bytes; `find_first_fit` and `find_best_fit` return it, while
`find_worst_fit` returns `none`, because its size is not above the initial
`max_size`. -/
theorem find_worst_fit_misses_empty_block :
    (initialize_memory 1000 100).map
        (fun s => (run s [Call.RQ "A" 10 'F', Call.RQ "Z" 0 'F', Call.RQ "B" 90 'F',
                          Call.RL "Z"]).memory_list)
      = some [owned_at 1000 10 "A", free_at 1010 0, owned_at 1010 90 "B"] ∧
    Fits 0 (free_at 1010 0) ∧
    find_worst_fit [owned_at 1000 10 "A", free_at 1010 0, owned_at 1010 90 "B"] 0 = none ∧
    find_first_fit [owned_at 1000 10 "A", free_at 1010 0, owned_at 1010 90 "B"] 0 = some 1 ∧
    find_best_fit [owned_at 1000 10 "A", free_at 1010 0, owned_at 1010 90 "B"] 0 = some 1 := by
  decide

/-! ## `allocate_memory` -/

theorem select_fit_valid (l : List MemoryBlock) (size : Nat) (strategy : Char)
    (hs : strategy = 'F' ∨ strategy = 'B' ∨ strategy = 'W') :
    select_fit l size strategy ≠ none := by
  rcases hs with rfl | rfl | rfl <;> simp [select_fit]

theorem select_fit_sound (l : List MemoryBlock) (size : Nat) (strategy : Char) (i : Nat)
    (hsel : select_fit l size strategy = some (some i)) :
    ∃ c, l[i]? = some c ∧ Fits size c := by
  unfold select_fit at hsel
  split_ifs at hsel with h1 h2 h3
  · have e : find_first_fit_from l size 0 = some i := by simpa [find_first_fit] using hsel
    rcases find_first_fit_from_spec size l 0 with ⟨e0, _⟩ | ⟨k, c, ek, hc, hf, _⟩
    · rw [e0] at e
      exact absurd e (by simp)
    · rw [ek] at e
      have hk : k = i := by simpa using e
      subst hk
      exact ⟨c, hc, hf⟩
  · have e : find_best_fit_from l size 0 none SIZE_MAX = some i := by
      simpa [find_best_fit] using hsel
    rcases find_best_fit_from_spec size l 0 none SIZE_MAX with
      ⟨e0, _⟩ | ⟨k, c, ek, hc, hf, _⟩
    · rw [e0] at e
      exact absurd e (by simp)
    · rw [ek] at e
      have hk : k = i := by simpa using e
      subst hk
      exact ⟨c, hc, hf⟩
  · have e : find_worst_fit_from l size 0 none 0 = some i := by
      simpa [find_worst_fit] using hsel
    rcases find_worst_fit_from_spec size l 0 none 0 with
      ⟨e0, _⟩ | ⟨k, c, ek, hc, hf, _⟩
    · rw [e0] at e
      exact absurd e (by simp)
    · rw [ek] at e
      have hk : k = i := by simpa using e
      subst hk
      exact ⟨c, hc, hf⟩

theorem select_fit_none_iff (l : List MemoryBlock) (size : Nat) (strategy : Char)
    (hs : strategy = 'F' ∨ strategy = 'B' ∨ strategy = 'W') (hpos : 0 < size)
    (hword : ∀ b ∈ l, b.size ≤ SIZE_MAX) :
    select_fit l size strategy = some none ↔ ∀ b ∈ l, ¬ Fits size b := by
  rcases hs with rfl | rfl | rfl
  · simp only [select_fit, if_true, Option.some.injEq, find_first_fit]
    constructor
    · intro hn
      rcases find_first_fit_from_spec size l 0 with ⟨_, hall⟩ | ⟨k, c, e, _⟩
      · exact hall
      · rw [e] at hn
        exact absurd hn (by simp)
    · intro hall
      rcases find_first_fit_from_spec size l 0 with ⟨e, _⟩ | ⟨k, c, _, hc, hf, _⟩
      · exact e
      · exact absurd hf (hall c (List.getElem?_mem hc))
  · have hB : ('B' : Char) ≠ 'F' := by decide
    simp only [select_fit, hB, if_false, if_true, Option.some.injEq, find_best_fit]
    constructor
    · intro hn
      rcases find_best_fit_from_spec size l 0 none SIZE_MAX with
        ⟨_, hall⟩ | ⟨k, c, e, _⟩
      · intro b hb hfb
        have h1 := hall b hb hfb
        have h2 := hword b hb
        have h3 := hfb.2
        omega
      · rw [e] at hn
        exact absurd hn (by simp)
    · intro hall
      rcases find_best_fit_from_spec size l 0 none SIZE_MAX with
        ⟨e, _⟩ | ⟨k, c, _, hc, hf, _⟩
      · exact e
      · exact absurd hf (hall c (List.getElem?_mem hc))
  · have hW1 : ('W' : Char) ≠ 'F' := by decide
    have hW2 : ('W' : Char) ≠ 'B' := by decide
    simp only [select_fit, hW1, hW2, if_false, if_true, Option.some.injEq, find_worst_fit]
    constructor
    · intro hn
      rcases find_worst_fit_from_spec size l 0 none 0 with ⟨_, hall⟩ | ⟨k, c, e, _⟩
      · intro b hb hfb
        have h1 := hall b hb hfb
        have h3 := hfb.2
        omega
      · rw [e] at hn
        exact absurd hn (by simp)
    · intro hall
      rcases find_worst_fit_from_spec size l 0 none 0 with
        ⟨e, _⟩ | ⟨k, c, _, hc, hf, _⟩
      · exact e
      · exact absurd hf (hall c (List.getElem?_mem hc))

theorem allocate_at_eq (process_id : String) (size : Nat) :
    ∀ (l : List MemoryBlock) (i : Nat) (c : MemoryBlock), l[i]? = some c →
    allocate_at l i process_id size =
      l.take i ++ (claim_block c process_id size ::
        ((if size < c.size then [remainder_block c size] else []) ++ l.drop (i + 1))) := by
  intro l
  induction l with
  | nil => intro i c hc; simp at hc
  | cons b rest ih =>
    intro i c hc
    cases i with
    | zero =>
      simp at hc
      subst hc
      simp only [allocate_at]
      split_ifs <;> simp
    | succ i =>
      simp at hc
      simp [allocate_at, ih i c hc]

theorem allocate_memory_of_select (l : List MemoryBlock) (process_id : String) (size : Nat)
    (strategy : Char) (i : Nat) (c : MemoryBlock)
    (hsel : select_fit l size strategy = some (some i)) (hc : l[i]? = some c) :
    allocate_memory l process_id size strategy =
      (Report.allocated size process_id c.start_address,
       l.take i ++ (claim_block c process_id size ::
        ((if size < c.size then [remainder_block c size] else []) ++ l.drop (i + 1)))) := by
  simp only [allocate_memory, hsel, hc]
  rw [allocate_at_eq process_id size l i c hc]

/-- C6. For every block list, owner, strategy among `F`, `B`, `W` and request
size: when the block the strategy selects (position `i`, value `c`) is strictly
larger than the request, `allocate_memory` reports the allocation at
`c.start_address` with the requested size and replaces the block, in its
position, by two blocks: an allocated block with the start of `c`, the
requested size and the given owner, immediately followed by a free block with
start `c.start_address + size` (the word-sized sum the program computes, which
is the exact sum whenever `c` does not extend past the end of the address
space) and size `c.size - size`.  The selected block is free. -/
theorem allocate_memory_splits_larger_block (l : List MemoryBlock) (process_id : String)
    (size : Nat) (strategy : Char) (i : Nat) (c : MemoryBlock)
    (hs : strategy = 'F' ∨ strategy = 'B' ∨ strategy = 'W')
    (hsel : select_fit l size strategy = some (some i)) (hc : l[i]? = some c)
    (hlt : size < c.size) :
    c.allocated = false ∧
    allocate_memory l process_id size strategy =
      (Report.allocated size process_id c.start_address,
       l.take i ++ (owned_at c.start_address size process_id ::
         free_at (wrap (c.start_address + size)) (c.size - size) :: l.drop (i + 1))) ∧
    (c.start_address + c.size ≤ 2 ^ 64 →
      wrap (c.start_address + size) = c.start_address + size) := by
  have _ := hs
  obtain ⟨c0, hc0, hf⟩ := select_fit_sound l size strategy i hsel
  have hcc : c0 = c := by
    rw [hc] at hc0
    exact (Option.some.inj hc0).symm
  subst hcc
  refine ⟨hf.1, ?_, ?_⟩
  · rw [allocate_memory_of_select l process_id size strategy i c0 hsel hc]
    simp [hlt, claim_block, remainder_block, owned_at, free_at]
  · intro hfit
    unfold wrap
    exact Nat.mod_eq_of_lt (by omega)

/-- C6 at a concrete list: best fit of 30 bytes into the free block `[1020, 1100)`. -/
theorem allocate_memory_splits_larger_block_witness :
    select_fit [owned_at 1000 20 "P1", free_at 1020 80] 30 'B' = some (some 1) ∧
    allocate_memory [owned_at 1000 20 "P1", free_at 1020 80] "P2" 30 'B' =
      (Report.allocated 30 "P2" 1020,
       [owned_at 1000 20 "P1", owned_at 1020 30 "P2", free_at 1050 50]) :=
  ⟨by decide,
   (allocate_memory_splits_larger_block [owned_at 1000 20 "P1", free_at 1020 80] "P2" 30 'B'
      1 (free_at 1020 80) (by decide) (by decide) (by decide) (by decide)).2.1.trans
     (by decide)⟩

/-- C7. For every block list, owner, strategy among `F`, `B`, `W` and request
size: when the block the strategy selects (position `i`, value `c`) has exactly
the requested size, `allocate_memory` reports the allocation at
`c.start_address` and only marks that block allocated with the given owner: the
block keeps its start and size, the number of blocks is unchanged and every
other block is unchanged. -/
theorem allocate_memory_exact_fit_in_place (l : List MemoryBlock) (process_id : String)
    (size : Nat) (strategy : Char) (i : Nat) (c : MemoryBlock)
    (hs : strategy = 'F' ∨ strategy = 'B' ∨ strategy = 'W')
    (hsel : select_fit l size strategy = some (some i)) (hc : l[i]? = some c)
    (heq : c.size = size) :
    allocate_memory l process_id size strategy =
      (Report.allocated size process_id c.start_address,
       l.set i (owned_at c.start_address c.size process_id)) ∧
    (allocate_memory l process_id size strategy).2.length = l.length ∧
    (allocate_memory l process_id size strategy).2[i]? =
      some { c with allocated := true, process_id := process_id } ∧
    ∀ j, j ≠ i → (allocate_memory l process_id size strategy).2[j]? = l[j]? := by
  have _ := hs
  have hi : i < l.length := by
    rcases Nat.lt_or_ge i l.length with h | h
    · exact h
    · rw [List.getElem?_eq_none h] at hc
      exact absurd hc (by simp)
  have hres : allocate_memory l process_id size strategy =
      (Report.allocated size process_id c.start_address,
       l.set i (owned_at c.start_address c.size process_id)) := by
    rw [allocate_memory_of_select l process_id size strategy i c hsel hc,
      List.set_eq_take_append_cons_drop]
    simp [hi, heq, claim_block, owned_at]
  refine ⟨hres, ?_, ?_, ?_⟩
  · rw [hres]
    simp
  · rw [hres]
    simp [hi, owned_at]
  · intro j hj
    rw [hres]
    simp [List.getElem?_set_ne (Ne.symm hj)]

/-- C7 at a concrete list: worst fit of 80 bytes into the free block `[1020, 1100)`. -/
theorem allocate_memory_exact_fit_in_place_witness :
    select_fit [owned_at 1000 20 "P1", free_at 1020 80] 80 'W' = some (some 1) ∧
    allocate_memory [owned_at 1000 20 "P1", free_at 1020 80] "P2" 80 'W' =
      (Report.allocated 80 "P2" 1020, [owned_at 1000 20 "P1", owned_at 1020 80 "P2"]) :=
  ⟨by decide,
   (allocate_memory_exact_fit_in_place [owned_at 1000 20 "P1", free_at 1020 80] "P2" 80 'W'
      1 (free_at 1020 80) (by decide) (by decide) (by decide) (by decide)).1.trans
     (by decide)⟩

/-- C8, as the code has it.  `allocate_memory` does not validate the size: for
every block list, owner and strategy among `F`, `B`, `W`, a request of 0 bytes
is served like any other.  When the strategy selects no block, the call reports
not-enough-memory and leaves the list unchanged; with `F` this happens exactly
when the list has no free block.  When the strategy selects a block `c`, the
call succeeds: it reports an allocation of 0 bytes at `c.start_address` and
turns `c` into an allocated block of size 0 with the given owner, followed,
when `c.size` is positive, by a free block that keeps the whole size of `c`. -/
theorem allocate_memory_zero_size (l : List MemoryBlock) (process_id : String)
    (strategy : Char) (hs : strategy = 'F' ∨ strategy = 'B' ∨ strategy = 'W') :
    (select_fit l 0 strategy = some none ∨ ∃ i, select_fit l 0 strategy = some (some i)) ∧
    (select_fit l 0 strategy = some none →
      allocate_memory l process_id 0 strategy =
        (Report.not_enough_memory 0 process_id, l)) ∧
    (∀ i, select_fit l 0 strategy = some (some i) →
      ∃ c, l[i]? = some c ∧ c.allocated = false ∧
        allocate_memory l process_id 0 strategy =
          (Report.allocated 0 process_id c.start_address,
           l.take i ++ (owned_at c.start_address 0 process_id ::
             ((if 0 < c.size then [free_at (wrap c.start_address) c.size] else []) ++
               l.drop (i + 1))))) ∧
    (select_fit l 0 'F' = some none ↔ ∀ b ∈ l, b.allocated = true) := by
  refine ⟨?_, ?_, ?_, ?_⟩
  · have hv := select_fit_valid l 0 strategy hs
    cases hsel : select_fit l 0 strategy with
    | none => exact absurd hsel hv
    | some r =>
      cases r with
      | none => exact Or.inl rfl
      | some i => exact Or.inr ⟨i, rfl⟩
  · intro hsel
    simp only [allocate_memory, hsel]
  · intro i hsel
    obtain ⟨c, hc, hf⟩ := select_fit_sound l 0 strategy i hsel
    refine ⟨c, hc, hf.1, ?_⟩
    rw [allocate_memory_of_select l process_id 0 strategy i c hsel hc]
    by_cases hpos : 0 < c.size
    · simp [hpos, claim_block, remainder_block, owned_at, free_at]
    · simp [hpos, claim_block, owned_at]
  · simp only [select_fit, if_true, Option.some.injEq, find_first_fit]
    constructor
    · intro hn b hb
      rcases find_first_fit_from_spec 0 l 0 with ⟨_, hall⟩ | ⟨k, c, e, _⟩
      · have h1 := hall b hb
        cases hba : b.allocated with
        | true => rfl
        | false => exact absurd ⟨hba, Nat.zero_le _⟩ h1
      · rw [e] at hn
        exact absurd hn (by simp)
    · intro hall
      rcases find_first_fit_from_spec 0 l 0 with ⟨e, _⟩ | ⟨k, c, _, hc, hf, _⟩
      · exact e
      · have h1 := hall c (List.getElem?_mem hc)
        rw [hf.1] at h1
        exact absurd h1 (by simp)

/-- C8 at a concrete list: a request of 0 bytes against one free block. -/
theorem allocate_memory_zero_size_witness :
    allocate_memory [free_at 1000 100] "P1" 0 'W' =
      (Report.allocated 0 "P1" 1000, [owned_at 1000 0 "P1", free_at 1000 100]) := by
  obtain ⟨c, hc, _, hres⟩ :=
    (allocate_memory_zero_size [free_at 1000 100] "P1" 'W' (by decide)).2.2.1 0 (by decide)
  have hcc : c = free_at 1000 100 := by
    have h0 : [free_at 1000 100][0]? = some (free_at 1000 100) := rfl
    rw [h0] at hc
    exact (Option.some.inj hc).symm
  subst hcc
  exact hres.trans (by decide)

/-- C8 as stated fails: a request of 0 bytes with strategy `F` against a single
free block of 100 bytes is not rejected; the call succeeds and the list changes
from one block to two. -/
theorem allocate_memory_zero_size_counterexample :
    allocate_memory [free_at 1000 100] "P1" 0 'F' =
      (Report.allocated 0 "P1" 1000, [owned_at 1000 0 "P1", free_at 1000 100]) ∧
    (allocate_memory [free_at 1000 100] "P1" 0 'F').2 ≠ [free_at 1000 100] := by
  decide

/-- C9. For every block list whose sizes are `size_t` values, every owner,
every request size above 0 and each strategy `F`, `B`, `W`: `allocate_memory`
reports not-enough-memory if and only if no free block has size at least the
request, and in that case the block list is unchanged. -/
theorem allocate_memory_not_enough_iff (l : List MemoryBlock) (process_id : String)
    (size : Nat) (strategy : Char)
    (hs : strategy = 'F' ∨ strategy = 'B' ∨ strategy = 'W') (hpos : 0 < size)
    (hword : ∀ b ∈ l, b.size ≤ SIZE_MAX) :
    ((allocate_memory l process_id size strategy).1 = Report.not_enough_memory size process_id ↔
      ∀ b ∈ l, ¬ Fits size b) ∧
    ((allocate_memory l process_id size strategy).1 = Report.not_enough_memory size process_id →
      (allocate_memory l process_id size strategy).2 = l) := by
  have hiff := select_fit_none_iff l size strategy hs hpos hword
  have hv := select_fit_valid l size strategy hs
  cases hsel : select_fit l size strategy with
  | none => exact absurd hsel hv
  | some r =>
    cases r with
    | none =>
      have hno := hiff.mp hsel
      simp only [allocate_memory, hsel]
      exact ⟨⟨fun _ => hno, fun _ => trivial⟩, fun _ => trivial⟩
    | some i =>
      obtain ⟨c, hc, hf⟩ := select_fit_sound l size strategy i hsel
      rw [allocate_memory_of_select l process_id size strategy i c hsel hc]
      refine ⟨⟨fun h => absurd h (by simp), fun hall => ?_⟩, fun h => absurd h (by simp)⟩
      exact absurd hf (hall c (List.getElem?_mem hc))

/-- C9 at a concrete list: 30 bytes requested, the only free block has 20. -/
theorem allocate_memory_not_enough_iff_witness :
    (∀ b ∈ [free_at 1000 20, owned_at 1020 80 "P1"], ¬ Fits 30 b) ∧
    (allocate_memory [free_at 1000 20, owned_at 1020 80 "P1"] "P2" 30 'B').1 =
      Report.not_enough_memory 30 "P2" ∧
    (allocate_memory [free_at 1000 20, owned_at 1020 80 "P1"] "P2" 30 'B').2 =
      [free_at 1000 20, owned_at 1020 80 "P1"] :=
  have h := allocate_memory_not_enough_iff [free_at 1000 20, owned_at 1020 80 "P1"] "P2" 30 'B'
    (by decide) (by decide) (by decide)
  ⟨by decide, h.1.mpr (by decide), h.2 (h.1.mpr (by decide))⟩

/-! ## `release_memory` -/

theorem release_from_none_iff (process_id : String) :
    ∀ (l : List MemoryBlock) (prev : Option MemoryBlock),
    release_from process_id prev l = none ↔
      ∀ b ∈ l, ¬ (b.allocated = true ∧ b.process_id = process_id) := by
  intro l
  induction l with
  | nil => intro prev; simp [release_from]
  | cons cur rest ih =>
    intro prev
    simp only [release_from]
    split_ifs with h
    · constructor
      · intro hn
        exact absurd hn (by simp)
      · intro hall
        exact absurd h (hall cur (List.mem_cons_self _ _))
    · have ih1 := ih (some cur)
      cases hr : release_from process_id (some cur) rest with
      | none =>
        simp only [true_iff]
        intro b hb
        rcases List.mem_cons.mp hb with rfl | hb
        · exact h
        · exact (ih1.mp hr) b hb
      | some res =>
        constructor
        · intro hn
          exact absurd hn (by simp)
        · intro hall
          have hnone := ih1.mpr (fun b hb => hall b (List.mem_cons_of_mem _ hb))
          rw [hr] at hnone
          exact absurd hnone (by simp)

theorem release_from_report (process_id : String) :
    ∀ (l : List MemoryBlock) (prev : Option MemoryBlock) (res : Report × List MemoryBlock),
    release_from process_id prev l = some res →
      ∃ a n, res.1 = Report.released process_id a n := by
  intro l
  induction l with
  | nil => intro prev res h; simp [release_from] at h
  | cons cur rest ih =>
    intro prev res h
    simp only [release_from] at h
    split_ifs at h with hm
    · have h1 := Option.some.inj h
      subst h1
      exact ⟨cur.start_address, cur.size, rfl⟩
    · cases hr : release_from process_id (some cur) rest with
      | none =>
        rw [hr] at h
        exact absurd h (by simp)
      | some res1 =>
        rw [hr] at h
        obtain ⟨a, n, e⟩ := ih (some cur) res1 hr
        have h1 := Option.some.inj h
        subst h1
        exact ⟨a, n, e⟩

/-- C10. For every block list and owner id, `release_memory` reports not-found
if and only if no allocated block of the list has that owner, and in that case
the block list is unchanged. -/
theorem release_memory_not_found_iff (l : List MemoryBlock) (process_id : String) :
    ((release_memory l process_id).1 = Report.not_found process_id ↔
      ∀ b ∈ l, ¬ (b.allocated = true ∧ b.process_id = process_id)) ∧
    ((release_memory l process_id).1 = Report.not_found process_id →
      (release_memory l process_id).2 = l) := by
  have hiff := release_from_none_iff process_id l none
  cases hr : release_from process_id none l with
  | none =>
    have hno := hiff.mp hr
    simp only [release_memory, hr]
    exact ⟨⟨fun _ => hno, fun _ => trivial⟩, fun _ => trivial⟩
  | some res =>
    obtain ⟨a, n, e⟩ := release_from_report process_id l none res hr
    simp only [release_memory, hr]
    rw [e]
    refine ⟨⟨fun h => absurd h (by simp), fun hall => ?_⟩, fun h => absurd h (by simp)⟩
    have hnone := hiff.mpr hall
    rw [hr] at hnone
    exact absurd hnone (by simp)

/-! ## Coverage of the arena -/

/-- The blocks of the list tile the addresses from `a` up to `e`: each block
starts where the previous one ends, the first at `a`, the last ending at `e`. -/
def Tiles : Nat → List MemoryBlock → Nat → Prop
  | a, [], e => a = e
  | a, b :: rest, e => b.start_address = a ∧ Tiles (a + b.size) rest e

/-- Sum of the `size` fields of a list. -/
def total_bytes (l : List MemoryBlock) : Nat :=
  (l.map (fun b => b.size)).sum

theorem tiles_le : ∀ (l : List MemoryBlock) (a e : Nat), Tiles a l e → a ≤ e := by
  intro l
  induction l with
  | nil => intro a e h; exact Nat.le_of_eq h
  | cons b rest ih =>
    intro a e h
    have h1 := ih _ _ h.2
    omega

theorem tiles_total : ∀ (l : List MemoryBlock) (a e : Nat), Tiles a l e →
    a + total_bytes l = e := by
  intro l
  induction l with
  | nil => intro a e h; simpa [total_bytes, Tiles] using h
  | cons b rest ih =>
    intro a e h
    have h1 := ih _ _ h.2
    simp only [total_bytes, List.map_cons, List.sum_cons] at h1 ⊢
    omega

theorem tiles_append : ∀ (l₁ l₂ : List MemoryBlock) (a e : Nat),
    Tiles a (l₁ ++ l₂) e ↔ ∃ m, Tiles a l₁ m ∧ Tiles m l₂ e := by
  intro l₁
  induction l₁ with
  | nil =>
    intro l₂ a e
    constructor
    · intro h
      exact ⟨a, rfl, h⟩
    · rintro ⟨m, hm, h⟩
      have hm1 : a = m := hm
      subst hm1
      exact h
  | cons b rest ih =>
    intro l₂ a e
    simp only [List.cons_append, Tiles]
    constructor
    · rintro ⟨hb, h⟩
      obtain ⟨m, h1, h2⟩ := (ih l₂ _ e).mp h
      exact ⟨m, ⟨hb, h1⟩, h2⟩
    · rintro ⟨m, ⟨hb, h1⟩, h2⟩
      exact ⟨hb, (ih l₂ _ e).mpr ⟨m, h1, h2⟩⟩

theorem tiles_pairs : ∀ (l : List MemoryBlock) (a e : Nat), Tiles a l e →
    ∀ i x y, l[i]? = some x → l[i + 1]? = some y →
      x.start_address + x.size = y.start_address := by
  intro l
  induction l with
  | nil => intro a e _ i x y hx; simp at hx
  | cons b rest ih =>
    intro a e h i x y hx hy
    cases i with
    | zero =>
      simp at hx
      subst hx
      cases rest with
      | nil => simp at hy
      | cons b2 rest2 =>
        simp at hy
        subst hy
        have h2 := h.2.1
        have h1 := h.1
        omega
    | succ i =>
      simp at hx hy
      exact ih _ _ h.2 i x y hx hy

theorem tiles_allocate_at (process_id : String) (size e : Nat) (he : e < 2 ^ 64) :
    ∀ (l : List MemoryBlock) (i : Nat) (c : MemoryBlock) (a : Nat),
    Tiles a l e → l[i]? = some c → size ≤ c.size →
    Tiles a (allocate_at l i process_id size) e := by
  intro l
  induction l with
  | nil => intro i c a _ hc; simp at hc
  | cons b rest ih =>
    intro i c a h hc hle
    cases i with
    | zero =>
      simp at hc
      subst hc
      have hend := tiles_le _ _ _ h.2
      simp only [allocate_at]
      split_ifs with hlt
      · refine ⟨h.1, ?_, ?_⟩
        · simp only [remainder_block, claim_block, wrap]
          rw [h.1]
          exact Nat.mod_eq_of_lt (by omega)
        · have e1 : a + (claim_block b process_id size).size +
              (remainder_block b size).size = a + b.size := by
            simp only [remainder_block, claim_block]
            omega
          rw [e1]
          exact h.2
      · refine ⟨h.1, ?_⟩
        have e1 : a + (claim_block b process_id size).size = a + b.size := by
          simp only [claim_block]
          omega
        rw [e1]
        exact h.2
    | succ i =>
      simp at hc
      exact ⟨h.1, ih i c _ h.2 hc hle⟩

theorem allocate_memory_cases (l : List MemoryBlock) (process_id : String) (size : Nat)
    (strategy : Char) :
    (allocate_memory l process_id size strategy).2 = l ∨
    ∃ i c, l[i]? = some c ∧ Fits size c ∧
      (allocate_memory l process_id size strategy).2 = allocate_at l i process_id size := by
  cases hsel : select_fit l size strategy with
  | none => left; simp only [allocate_memory, hsel]
  | some r =>
    cases r with
    | none => left; simp only [allocate_memory, hsel]
    | some i =>
      right
      obtain ⟨c, hc, hf⟩ := select_fit_sound l size strategy i hsel
      refine ⟨i, c, hc, hf, ?_⟩
      simp only [allocate_memory, hsel, hc]

theorem tiles_release_from (process_id : String) (e : Nat) (he : e < 2 ^ 64) :
    ∀ (l : List MemoryBlock) (prev : Option MemoryBlock) (a : Nat)
      (res : Report × List MemoryBlock),
    Tiles a (prev.toList ++ l) e → release_from process_id prev l = some res →
    Tiles a res.2 e := by
  intro l
  induction l with
  | nil => intro prev a res _ h; simp [release_from] at h
  | cons cur rest ih =>
    intro prev a res ht h
    simp only [release_from] at h
    split_ifs at h with hm
    · have h1 := Option.some.inj h
      subst h1
      cases prev with
      | none =>
        simp only [Option.toList, List.nil_append, Tiles] at ht
        simp only [merge_prev, List.nil_append]
        cases rest with
        | nil => exact ⟨ht.1, ht.2⟩
        | cons next rest2 =>
          have hend := tiles_le _ _ _ ht.2.2
          simp only [merge_next]
          split_ifs with hn
          · refine ⟨ht.1, ?_⟩
            have e1 : wrap (cur.size + next.size) = cur.size + next.size := by
              unfold wrap
              exact Nat.mod_eq_of_lt (by omega)
            simp only [e1]
            rw [← Nat.add_assoc]
            exact ht.2.2
          · exact ⟨ht.1, ht.2⟩
      | some p =>
        simp only [Option.toList, List.singleton_append, Tiles] at ht
        have hend := tiles_le _ _ _ ht.2.2
        simp only [merge_prev]
        split_ifs with hp
        · have e0 : wrap (p.size + cur.size) = p.size + cur.size := by
            unfold wrap
            exact Nat.mod_eq_of_lt (by omega)
          simp only [List.nil_append, e0]
          cases rest with
          | nil =>
            refine ⟨ht.1, ?_⟩
            simp only [← Nat.add_assoc]
            exact ht.2.2
          | cons next rest2 =>
            have hend2 := tiles_le _ _ _ ht.2.2.2
            simp only [merge_next]
            split_ifs with hn
            · refine ⟨ht.1, ?_⟩
              have e1 : wrap (p.size + cur.size + next.size) =
                  p.size + cur.size + next.size := by
                unfold wrap
                exact Nat.mod_eq_of_lt (by omega)
              simp only [e1, ← Nat.add_assoc]
              exact ht.2.2.2
            · refine ⟨ht.1, ?_⟩
              simp only [← Nat.add_assoc]
              exact ht.2.2
        · simp only [List.singleton_append]
          refine ⟨ht.1, ?_⟩
          cases rest with
          | nil => exact ⟨ht.2.1, ht.2.2⟩
          | cons next rest2 =>
            have hend2 := tiles_le _ _ _ ht.2.2.2
            simp only [merge_next]
            split_ifs with hn
            · refine ⟨ht.2.1, ?_⟩
              have e1 : wrap (cur.size + next.size) = cur.size + next.size := by
                unfold wrap
                exact Nat.mod_eq_of_lt (by omega)
              simp only [e1]
              rw [← Nat.add_assoc]
              exact ht.2.2.2
            · exact ⟨ht.2.1, ht.2.2⟩
    · cases hr : release_from process_id (some cur) rest with
      | none =>
        rw [hr] at h
        exact absurd h (by simp)
      | some res1 =>
        rw [hr] at h
        have h1 := Option.some.inj h
        subst h1
        obtain ⟨m, hm1, hm2⟩ := (tiles_append prev.toList (cur :: rest) a e).mp ht
        exact (tiles_append prev.toList res1.2 a e).mpr
          ⟨m, hm1, ih (some cur) m res1 (by simpa using hm2) hr⟩

/-- Sum of the `size` fields of the allocated blocks of a list. -/
def allocated_bytes : List MemoryBlock → Nat
  | [] => 0
  | b :: rest => if b.allocated = true then b.size + allocated_bytes rest else allocated_bytes rest

theorem allocated_bytes_le_total : ∀ l : List MemoryBlock, allocated_bytes l ≤ total_bytes l := by
  intro l
  induction l with
  | nil => simp [allocated_bytes, total_bytes]
  | cons b rest ih =>
    simp only [allocated_bytes, total_bytes, List.map_cons, List.sum_cons] at ih ⊢
    split_ifs <;> omega

theorem compact_from_spec : ∀ (l : List MemoryBlock) (a : Nat),
    a + allocated_bytes l < 2 ^ 64 →
    (compact_from l a).2 = a + allocated_bytes l ∧
    Tiles a (compact_from l a).1 (a + allocated_bytes l) ∧
    ∀ b ∈ (compact_from l a).1, b.allocated = true := by
  intro l
  induction l with
  | nil =>
    intro a _
    simp [compact_from, allocated_bytes, Tiles]
  | cons cur rest ih =>
    intro a ha
    simp only [compact_from, allocated_bytes] at ha ⊢
    split_ifs with hc
    · rw [if_pos hc] at ha
      have e1 : wrap (a + cur.size) = a + cur.size := by
        unfold wrap
        exact Nat.mod_eq_of_lt (by omega)
      simp only [e1]
      obtain ⟨h1, h2, h3⟩ := ih (a + cur.size) (by omega)
      refine ⟨by rw [h1]; omega, ⟨rfl, ?_⟩, ?_⟩
      · have e2 : a + (cur.size + allocated_bytes rest) =
            a + cur.size + allocated_bytes rest := by omega
        rw [e2]
        exact h2
      · intro b hb
        rcases List.mem_cons.mp hb with rfl | hb
        · rfl
        · exact h3 b hb
    · rw [if_neg hc] at ha
      exact ih a ha

theorem tiles_compact_memory (memory_start total_memory_size : Nat) (l : List MemoryBlock)
    (hfit : memory_start + total_memory_size < 2 ^ 64)
    (ht : Tiles memory_start l (memory_start + total_memory_size)) :
    Tiles memory_start (compact_memory memory_start total_memory_size l)
      (memory_start + total_memory_size) := by
  have hsum := tiles_total _ _ _ ht
  have hle := allocated_bytes_le_total l
  obtain ⟨h1, h2, _⟩ := compact_from_spec l memory_start (by omega)
  have e1 : wrap (memory_start + total_memory_size) = memory_start + total_memory_size := by
    unfold wrap
    exact Nat.mod_eq_of_lt hfit
  simp only [compact_memory, e1, h1]
  split_ifs with hlt
  · refine (tiles_append _ _ _ _).mpr ⟨_, h2, rfl, ?_⟩
    show memory_start + allocated_bytes l +
      (memory_start + total_memory_size - (memory_start + allocated_bytes l)) =
        memory_start + total_memory_size
    omega
  · have e2 : memory_start + allocated_bytes l = memory_start + total_memory_size := by omega
    rw [e2] at h2
    exact h2

/-- The arena is non-empty, ends below `2 ^ 64`, and the block list tiles it. -/
def Covered (s : State) : Prop :=
  0 < s.total_memory_size ∧ s.memory_start + s.total_memory_size < 2 ^ 64 ∧
  Tiles s.memory_start s.memory_list (s.memory_start + s.total_memory_size)

theorem covered_step (s : State) (call : Call) (h : Covered s) : Covered (step s call) := by
  obtain ⟨hpos, hfit, ht⟩ := h
  cases call with
  | RQ process_id size strategy =>
    refine ⟨hpos, hfit, ?_⟩
    show Tiles s.memory_start (allocate_memory s.memory_list process_id size strategy).2 _
    rcases allocate_memory_cases s.memory_list process_id size strategy with
      e | ⟨i, c, hc, hf, e⟩
    · rw [e]
      exact ht
    · rw [e]
      exact tiles_allocate_at process_id size _ hfit _ i c _ ht hc hf.2
  | RL process_id =>
    refine ⟨hpos, hfit, ?_⟩
    show Tiles s.memory_start (release_memory s.memory_list process_id).2 _
    unfold release_memory
    cases hr : release_from process_id none s.memory_list with
    | none => exact ht
    | some res =>
      exact tiles_release_from process_id _ hfit s.memory_list none _ res
        (by simpa using ht) hr
  | C =>
    exact ⟨hpos, hfit, tiles_compact_memory _ _ _ hfit ht⟩

theorem run_fields : ∀ (calls : List Call) (s : State),
    (run s calls).memory_start = s.memory_start ∧
    (run s calls).total_memory_size = s.total_memory_size := by
  intro calls
  induction calls with
  | nil => intro s; exact ⟨rfl, rfl⟩
  | cons call rest ih =>
    intro s
    have h := ih (step s call)
    have e : run s (call :: rest) = run (step s call) rest := rfl
    rw [e]
    cases call <;> exact h

theorem covered_run : ∀ (calls : List Call) (s : State), Covered s → Covered (run s calls) := by
  intro calls
  induction calls with
  | nil => intro s h; exact h
  | cons call rest ih =>
    intro s h
    exact ih (step s call) (covered_step s call h)

/-- Coverage of the arena while owners fit their field.  Let
`initialize_memory` build the initial state for an arena of `size > 0` bytes
that `malloc` placed at `arena`, the arena ending below `2 ^ 64`.  After any
finite sequence of `allocate_memory`, `release_memory` and `compact_memory`
calls whose allocations name owners that fit `process_id` (any sizes and
strategy tags; every prefix of such a sequence is such a sequence, so this is
the state after each call) the block list is non-empty, its first block starts
at the base of the arena, every consecutive pair satisfies
`start + size = next start`, and the block sizes sum to the total size. -/
theorem block_list_covers_arena (arena size : Nat) (s₀ : State) (calls : List Call)
    (hsize : 0 < size) (hfit : arena + size < 2 ^ 64)
    (hinit : initialize_memory arena size = some s₀)
    (hown : ∀ process_id sz strategy, Call.RQ process_id sz strategy ∈ calls →
      owner_fits process_id) :
    (run s₀ calls).memory_list ≠ [] ∧
    ((run s₀ calls).memory_list.head?.map fun b => b.start_address) = some arena ∧
    (∀ i x y, (run s₀ calls).memory_list[i]? = some x →
      (run s₀ calls).memory_list[i + 1]? = some y →
      x.start_address + x.size = y.start_address) ∧
    total_bytes (run s₀ calls).memory_list = size := by
  have _ := hown
  unfold initialize_memory at hinit
  split_ifs at hinit with h0
  have hs := Option.some.inj hinit
  have hcov0 : Covered s₀ := by
    rw [← hs]
    exact ⟨hsize, hfit, rfl, rfl⟩
  have hms : s₀.memory_start = arena := by rw [← hs]
  have htot : s₀.total_memory_size = size := by rw [← hs]
  obtain ⟨_, _, ht⟩ := covered_run calls s₀ hcov0
  rw [(run_fields calls s₀).1, (run_fields calls s₀).2, hms, htot] at ht
  have hsum := tiles_total _ _ _ ht
  refine ⟨?_, ?_, tiles_pairs _ _ _ ht, by omega⟩
  · intro hnil
    rw [hnil] at ht
    have : arena = arena + size := ht
    omega
  · cases hl : (run s₀ calls).memory_list with
    | nil =>
      rw [hl] at ht
      have : arena = arena + size := ht
      omega
    | cons b rest =>
      rw [hl] at ht
      simp [ht.1]

/-- Coverage on the scenario of the specification: a 100-byte arena at address 1000. -/
theorem block_list_covers_arena_witness :
    initialize_memory 1000 100 =
      some { memory_start := 1000, total_memory_size := 100,
             memory_list := [free_at 1000 100] } ∧
    total_bytes
      (run { memory_start := 1000, total_memory_size := 100,
             memory_list := [free_at 1000 100] }
        [Call.RQ "P1" 20 'F', Call.RQ "P2" 30 'B', Call.RL "P1", Call.C]).memory_list = 100 :=
  ⟨by decide,
   (block_list_covers_arena 1000 100
      { memory_start := 1000, total_memory_size := 100, memory_list := [free_at 1000 100] }
      [Call.RQ "P1" 20 'F', Call.RQ "P2" 30 'B', Call.RL "P1", Call.C]
      (by decide) (by decide) (by decide)
      (by
        intro process_id sz strategy hc
        simp only [List.mem_cons, Call.RQ.injEq, List.mem_singleton, reduceCtorEq,
          or_false, List.not_mem_nil] at hc
        rcases hc with ⟨rfl, _, _⟩ | ⟨rfl, _, _⟩ <;> decide)).2.2.2⟩

/-- C1 at an owner that does not fit.  On a fresh 100-byte arena the call
`RQ AAAAAAAAAAAAAAAAAAAA 10 F` finds the free block at position 0, so
`allocate_memory` goes on to its `strcpy` with an owner of 20 bytes: 21 bytes
are written into the 10-byte field `process_id`, 11 of them past its end.  The
embedding, which stores the owner whole, reports a plain allocation and shows
none of the overwrite. -/
theorem long_owner_overruns_process_id :
    (initialize_memory 1000 100).map (fun s => select_fit s.memory_list 10 'F') =
      some (some (some 0)) ∧
    strcpy_bytes "AAAAAAAAAAAAAAAAAAAA" = 21 ∧
    PROCESS_ID_SIZE = 10 ∧
    ¬ owner_fits "AAAAAAAAAAAAAAAAAAAA" ∧
    allocate_memory [free_at 1000 100] "AAAAAAAAAAAAAAAAAAAA" 10 'F' =
      (Report.allocated 10 "AAAAAAAAAAAAAAAAAAAA" 1000,
       [owned_at 1000 10 "AAAAAAAAAAAAAAAAAAAA", free_at 1010 90]) := by
  decide

/-! ## No two neighbouring free blocks -/

/-- No block of the list is free right after a free block; `prev_free` says
whether the block in front of the list is free. -/
def NoFreePair : Bool → List MemoryBlock → Prop
  | _, [] => True
  | prev_free, b :: rest =>
    ¬ (prev_free = true ∧ b.allocated = false) ∧ NoFreePair (!b.allocated) rest

theorem noFreePair_false : ∀ (l : List MemoryBlock) (pf : Bool),
    NoFreePair pf l → NoFreePair false l := by
  intro l pf h
  cases l with
  | nil => trivial
  | cons b rest => exact ⟨by simp, h.2⟩

theorem noFreePair_pairs : ∀ (l : List MemoryBlock) (pf : Bool), NoFreePair pf l →
    ∀ i x y, l[i]? = some x → l[i + 1]? = some y →
      ¬ (x.allocated = false ∧ y.allocated = false) := by
  intro l
  induction l with
  | nil => intro pf _ i x y hx; simp at hx
  | cons b rest ih =>
    intro pf h i x y hx hy
    cases i with
    | zero =>
      simp at hx
      subst hx
      cases rest with
      | nil => simp at hy
      | cons b2 rest2 =>
        simp at hy
        subst hy
        have h2 := h.2.1
        intro hxy
        exact h2 ⟨by simp [hxy.1], hxy.2⟩
    | succ i =>
      simp at hx hy
      exact ih _ h.2 i x y hx hy

theorem noFreePair_allocate_at (process_id : String) (size : Nat) :
    ∀ (l : List MemoryBlock) (pf : Bool) (i : Nat) (c : MemoryBlock),
    NoFreePair pf l → l[i]? = some c → c.allocated = false →
    NoFreePair pf (allocate_at l i process_id size) := by
  intro l
  induction l with
  | nil => intro pf i c _ hc; simp at hc
  | cons b rest ih =>
    intro pf i c h hc hfree
    cases i with
    | zero =>
      simp at hc
      subst hc
      have h2 : NoFreePair true rest := by simpa [hfree] using h.2
      simp only [allocate_at]
      split_ifs with hlt
      · refine ⟨by simp [claim_block], ⟨by simp [claim_block], ?_⟩⟩
        simpa [remainder_block] using h2
      · refine ⟨by simp [claim_block], ?_⟩
        simpa [claim_block] using noFreePair_false rest true h2
    | succ i =>
      simp at hc
      exact ⟨h.1, ih _ i c h.2 hc hfree⟩

theorem noFreePair_merge_next (freed : MemoryBlock) (hfreed : freed.allocated = false) :
    ∀ (rest : List MemoryBlock) (pf : Bool),
    ¬ (pf = true ∧ freed.allocated = false) → NoFreePair false rest →
    NoFreePair pf (merge_next freed rest) := by
  intro rest pf hpf h
  cases rest with
  | nil => exact ⟨hpf, trivial⟩
  | cons next rest2 =>
    simp only [merge_next]
    split_ifs with hn
    · refine ⟨hpf, ?_⟩
      have h2 : NoFreePair true rest2 := by simpa [hn] using h.2
      simpa [hfreed] using h2
    · refine ⟨hpf, ⟨?_, h.2⟩⟩
      intro hx
      exact hn hx.2

theorem noFreePair_release_from (process_id : String) :
    ∀ (l : List MemoryBlock) (prev : Option MemoryBlock) (pf : Bool)
      (res : Report × List MemoryBlock),
    (prev = none → pf = false) →
    NoFreePair pf (prev.toList ++ l) → release_from process_id prev l = some res →
    NoFreePair pf res.2 := by
  intro l
  induction l with
  | nil => intro prev pf res _ _ h; simp [release_from] at h
  | cons cur rest ih =>
    intro prev pf res hpf ht h
    simp only [release_from] at h
    split_ifs at h with hm
    · have h1 := Option.some.inj h
      subst h1
      cases prev with
      | none =>
        have hpf0 := hpf rfl
        subst hpf0
        simp only [Option.toList, List.nil_append] at ht
        simp only [merge_prev, List.nil_append]
        have h2 : NoFreePair false rest := by simpa [hm.1] using ht.2
        exact noFreePair_merge_next _ rfl rest false (by simp) h2
      | some p =>
        simp only [Option.toList, List.singleton_append] at ht
        have h2 : NoFreePair false rest := by simpa [hm.1] using ht.2.2
        simp only [merge_prev]
        split_ifs with hp
        · simp only [List.nil_append]
          refine noFreePair_merge_next
            { p with size := wrap (p.size + cur.size) } hp rest pf ?_ h2
          intro hx
          exact ht.1 ⟨hx.1, hp⟩
        · simp only [List.singleton_append]
          refine ⟨ht.1, ?_⟩
          have hp1 : p.allocated = true := by simpa using hp
          rw [hp1]
          exact noFreePair_merge_next _ rfl rest _ (by simp) h2
    · cases hr : release_from process_id (some cur) rest with
      | none =>
        rw [hr] at h
        exact absurd h (by simp)
      | some res1 =>
        rw [hr] at h
        have h1 := Option.some.inj h
        subst h1
        cases prev with
        | none =>
          simp only [Option.toList, List.nil_append] at ht ⊢
          exact ih (some cur) pf res1 (by simp) (by simpa using ht) hr
        | some p =>
          simp only [Option.toList, List.singleton_append] at ht ⊢
          exact ⟨ht.1, ih (some cur) _ res1 (by simp) (by simpa using ht.2) hr⟩

theorem noFreePair_allocated_append (x : MemoryBlock) :
    ∀ l : List MemoryBlock, (∀ b ∈ l, b.allocated = true) →
    NoFreePair false (l ++ [x]) ∧ NoFreePair false l := by
  intro l
  induction l with
  | nil => intro _; exact ⟨⟨by simp, trivial⟩, trivial⟩
  | cons b rest ih =>
    intro h
    have hb := h b (List.mem_cons_self _ _)
    obtain ⟨h1, h2⟩ := ih (fun y hy => h y (List.mem_cons_of_mem _ hy))
    exact ⟨⟨by simp, by simpa [hb] using h1⟩, ⟨by simp, by simpa [hb] using h2⟩⟩

theorem compact_from_allocated : ∀ (l : List MemoryBlock) (a : Nat),
    ∀ b ∈ (compact_from l a).1, b.allocated = true := by
  intro l
  induction l with
  | nil => intro a b hb; simp [compact_from] at hb
  | cons cur rest ih =>
    intro a b hb
    simp only [compact_from] at hb
    split_ifs at hb with hc
    · rcases List.mem_cons.mp hb with rfl | hb
      · rfl
      · exact ih _ b hb
    · exact ih _ b hb

theorem noFreePair_compact_memory (memory_start total_memory_size : Nat)
    (l : List MemoryBlock) :
    NoFreePair false (compact_memory memory_start total_memory_size l) := by
  simp only [compact_memory]
  split_ifs with hlt
  · exact (noFreePair_allocated_append _ _ (compact_from_allocated l memory_start)).1
  · exact (noFreePair_allocated_append (free_at 0 0) _
      (compact_from_allocated l memory_start)).2

theorem noFreePair_step (s : State) (call : Call) (h : NoFreePair false s.memory_list) :
    NoFreePair false (step s call).memory_list := by
  cases call with
  | RQ process_id size strategy =>
    show NoFreePair false (allocate_memory s.memory_list process_id size strategy).2
    rcases allocate_memory_cases s.memory_list process_id size strategy with
      e | ⟨i, c, hc, hf, e⟩
    · rw [e]
      exact h
    · rw [e]
      exact noFreePair_allocate_at process_id size _ false i c h hc hf.1
  | RL process_id =>
    show NoFreePair false (release_memory s.memory_list process_id).2
    unfold release_memory
    cases hr : release_from process_id none s.memory_list with
    | none => exact h
    | some res =>
      exact noFreePair_release_from process_id s.memory_list none false res
        (fun _ => rfl) (by simpa using h) hr
  | C => exact noFreePair_compact_memory _ _ _

theorem noFreePair_run : ∀ (calls : List Call) (s : State),
    NoFreePair false s.memory_list → NoFreePair false (run s calls).memory_list := by
  intro calls
  induction calls with
  | nil => intro s h; exact h
  | cons call rest ih =>
    intro s h
    exact ih (step s call) (noFreePair_step s call h)

/-- No two neighbouring free blocks while owners fit their field.  Let
`initialize_memory` build the initial single-free-block state.  After any
finite sequence of `allocate_memory`, `release_memory` and `compact_memory`
calls whose allocations name owners that fit `process_id` (every prefix of such
a sequence is such a sequence, so this is the state after each call) no two
consecutive blocks of the list are both free. -/
theorem no_adjacent_free_blocks (arena size : Nat) (s₀ : State) (calls : List Call)
    (hinit : initialize_memory arena size = some s₀)
    (hown : ∀ process_id sz strategy, Call.RQ process_id sz strategy ∈ calls →
      owner_fits process_id) :
    ∀ i x y, (run s₀ calls).memory_list[i]? = some x →
      (run s₀ calls).memory_list[i + 1]? = some y →
      ¬ (x.allocated = false ∧ y.allocated = false) := by
  have _ := hown
  unfold initialize_memory at hinit
  split_ifs at hinit with h0
  have hs := Option.some.inj hinit
  have h0 : NoFreePair false s₀.memory_list := by
    rw [← hs]
    exact ⟨by simp, trivial⟩
  exact noFreePair_pairs _ false (noFreePair_run calls s₀ h0)

/-- On a 100-byte arena: after `RQ P1 20 F`, `RQ P2 30 B`, `RL P1` the first two
blocks are not both free. -/
theorem no_adjacent_free_blocks_witness :
    initialize_memory 1000 100 =
      some { memory_start := 1000, total_memory_size := 100,
             memory_list := [free_at 1000 100] } ∧
    ¬ ((free_at 1000 20).allocated = false ∧ (owned_at 1020 30 "P2").allocated = false) :=
  ⟨by decide,
   no_adjacent_free_blocks 1000 100
      { memory_start := 1000, total_memory_size := 100, memory_list := [free_at 1000 100] }
      [Call.RQ "P1" 20 'F', Call.RQ "P2" 30 'B', Call.RL "P1"]
      (by decide)
      (by
        intro process_id sz strategy hc
        simp only [List.mem_cons, Call.RQ.injEq, List.mem_singleton, reduceCtorEq,
          or_false, List.not_mem_nil] at hc
        rcases hc with ⟨rfl, _, _⟩ | ⟨rfl, _, _⟩ <;> decide)
      0 (free_at 1000 20) (owned_at 1020 30 "P2") (by decide) (by decide)⟩

/-- C2 at an owner that does not fit.  After `RQ P1 20 F` on a fresh 100-byte
arena, the call `RQ BBBBBBBBBBBBBBBB 30 B` finds the free block at position 1,
so `allocate_memory` goes on to its `strcpy` with an owner of 16 bytes: 17
bytes are written into the 10-byte field `process_id`, 7 of them past its end.
The embedding, which stores the owner whole, reports a plain allocation and
shows none of the overwrite. -/
theorem long_owner_overruns_second_block :
    (initialize_memory 1000 100).map
        (fun s => select_fit (run s [Call.RQ "P1" 20 'F']).memory_list 30 'B') =
      some (some (some 1)) ∧
    strcpy_bytes "BBBBBBBBBBBBBBBB" = 17 ∧
    PROCESS_ID_SIZE = 10 ∧
    ¬ owner_fits "BBBBBBBBBBBBBBBB" ∧
    allocate_memory [owned_at 1000 20 "P1", free_at 1020 80] "BBBBBBBBBBBBBBBB" 30 'B' =
      (Report.allocated 30 "BBBBBBBBBBBBBBBB" 1020,
       [owned_at 1000 20 "P1", owned_at 1020 30 "BBBBBBBBBBBBBBBB", free_at 1050 50]) := by
  decide

/-! ## Closed form of `release_memory` -/

/-- The block `b` as `release_memory` marks it: free, owner cleared. -/
def freed_block (b : MemoryBlock) : MemoryBlock :=
  { b with allocated := false, process_id := "" }

/-- What `release_memory` leaves of `pre ++ b :: post` when `b` is the block it
releases: the two merge steps applied around the freed block. -/
def released_list (pre : List MemoryBlock) (b : MemoryBlock) (post : List MemoryBlock) :
    List MemoryBlock :=
  pre.dropLast ++ ((merge_prev pre.getLast? (freed_block b)).1 ++
    merge_next (merge_prev pre.getLast? (freed_block b)).2 post)

theorem release_from_split (process_id : String) (b : MemoryBlock) (post : List MemoryBlock)
    (hb : b.allocated = true ∧ b.process_id = process_id) :
    ∀ (pre : List MemoryBlock) (prev : Option MemoryBlock),
    (∀ x ∈ pre, ¬ (x.allocated = true ∧ x.process_id = process_id)) →
    release_from process_id prev (pre ++ b :: post) =
      some (Report.released process_id b.start_address b.size,
            released_list (prev.toList ++ pre) b post) := by
  intro pre
  induction pre with
  | nil =>
    intro prev _
    simp only [List.nil_append, release_from, if_pos hb, released_list, freed_block]
    cases prev <;> simp
  | cons x rest ih =>
    intro prev hpre
    have hx := hpre x (List.mem_cons_self _ _)
    have hrest := ih (some x) (fun y hy => hpre y (List.mem_cons_of_mem _ hy))
    rw [List.cons_append]
    simp only [release_from, if_neg hx]
    rw [hrest]
    cases prev with
    | none => rfl
    | some p =>
      simp only [released_list, Option.toList, List.singleton_append, List.nil_append,
        List.cons_append]
      rw [List.dropLast_cons_of_ne_nil (List.cons_ne_nil x rest)]
      simp

theorem release_memory_split (process_id : String) (pre : List MemoryBlock) (b : MemoryBlock)
    (post : List MemoryBlock)
    (hpre : ∀ x ∈ pre, ¬ (x.allocated = true ∧ x.process_id = process_id))
    (hb : b.allocated = true ∧ b.process_id = process_id) :
    release_memory (pre ++ b :: post) process_id =
      (Report.released process_id b.start_address b.size, released_list pre b post) := by
  have h := release_from_split process_id b post hb pre none hpre
  simp only [release_memory, h]
  simp

theorem exists_first_match (process_id : String) : ∀ l : List MemoryBlock,
    (∃ x ∈ l, x.allocated = true ∧ x.process_id = process_id) →
    ∃ pre b post, l = pre ++ b :: post ∧
      (∀ x ∈ pre, ¬ (x.allocated = true ∧ x.process_id = process_id)) ∧
      b.allocated = true ∧ b.process_id = process_id := by
  intro l
  induction l with
  | nil => rintro ⟨x, hx, _⟩; simp at hx
  | cons c rest ih =>
    rintro ⟨x, hx, hm⟩
    by_cases hc : c.allocated = true ∧ c.process_id = process_id
    · exact ⟨[], c, rest, rfl, by simp, hc.1, hc.2⟩
    · rcases List.mem_cons.mp hx with rfl | hx
      · exact absurd hm hc
      · obtain ⟨pre, b, post, e, hpre, hb1, hb2⟩ := ih ⟨x, hx, hm⟩
        refine ⟨c :: pre, b, post, by rw [e]; rfl, ?_, hb1, hb2⟩
        intro y hy
        rcases List.mem_cons.mp hy with rfl | hy
        · exact hc
        · exact hpre y hy

theorem released_list_allocated (pre : List MemoryBlock) (b : MemoryBlock)
    (post : List MemoryBlock) :
    (released_list pre b post).filter (fun x => x.allocated) =
      pre.filter (fun x => x.allocated) ++ post.filter (fun x => x.allocated) := by
  rcases List.eq_nil_or_concat pre with rfl | ⟨pre0, p, rfl⟩
  · cases post with
    | nil => simp [released_list, merge_prev, merge_next, freed_block]
    | cons n r =>
      by_cases hn : n.allocated = false
      · simp [released_list, merge_prev, merge_next, freed_block, hn]
      · simp [released_list, merge_prev, merge_next, freed_block, hn]
  · by_cases hp : p.allocated = false
    · cases post with
      | nil => simp [released_list, merge_prev, merge_next, freed_block, hp]
      | cons n r =>
        by_cases hn : n.allocated = false
        · simp [released_list, merge_prev, merge_next, freed_block, hp, hn]
        · simp [released_list, merge_prev, merge_next, freed_block, hp, hn]
    · cases post with
      | nil => simp [released_list, merge_prev, merge_next, freed_block, hp]
      | cons n r =>
        by_cases hn : n.allocated = false
        · simp [released_list, merge_prev, merge_next, freed_block, hp, hn]
        · simp [released_list, merge_prev, merge_next, freed_block, hp, hn]

/-- C11. For every block list in which some allocated block carries the given
owner id, the list splits as `pre ++ b :: post` with `b` the first such block in
list order; `release_memory` reports the start and size `b` had before any
merging, and the allocated blocks of the list afterwards are exactly the
allocated blocks of `pre` followed by those of `post`, each unchanged: `b` is
the one block that is no longer allocated, and every other allocated block,
later blocks of the same owner included, stays allocated with its owner. -/
theorem release_memory_frees_first_match (l : List MemoryBlock) (process_id : String)
    (h : ∃ x ∈ l, x.allocated = true ∧ x.process_id = process_id) :
    ∃ pre b post, l = pre ++ b :: post ∧
      (∀ x ∈ pre, ¬ (x.allocated = true ∧ x.process_id = process_id)) ∧
      b.allocated = true ∧ b.process_id = process_id ∧
      (release_memory l process_id).1 =
        Report.released process_id b.start_address b.size ∧
      l.filter (fun x => x.allocated) =
        pre.filter (fun x => x.allocated) ++ b :: post.filter (fun x => x.allocated) ∧
      (release_memory l process_id).2.filter (fun x => x.allocated) =
        pre.filter (fun x => x.allocated) ++ post.filter (fun x => x.allocated) := by
  obtain ⟨pre, b, post, e, hpre, hb1, hb2⟩ := exists_first_match process_id l h
  refine ⟨pre, b, post, e, hpre, hb1, hb2, ?_, ?_, ?_⟩
  · rw [e, release_memory_split process_id pre b post hpre ⟨hb1, hb2⟩]
  · rw [e]
    simp [hb1]
  · rw [e, release_memory_split process_id pre b post hpre ⟨hb1, hb2⟩]
    exact released_list_allocated pre b post

/-- C11 at a concrete list: owner `P1` holds two blocks; the first is released
and the second stays allocated. -/
theorem release_memory_frees_first_match_witness :
    (release_memory [owned_at 1000 20 "P1", owned_at 1020 30 "P2", owned_at 1050 50 "P1"]
        "P1").1 = Report.released "P1" 1000 20 ∧
    (release_memory [owned_at 1000 20 "P1", owned_at 1020 30 "P2", owned_at 1050 50 "P1"]
        "P1").2.filter (fun x => x.allocated) =
      [owned_at 1020 30 "P2", owned_at 1050 50 "P1"] := by
  obtain ⟨pre, b, post, _, _, _, _, _, _, _⟩ :=
    release_memory_frees_first_match
      [owned_at 1000 20 "P1", owned_at 1020 30 "P2", owned_at 1050 50 "P1"] "P1"
      ⟨owned_at 1000 20 "P1", by decide, by decide⟩
  decide

/-- The neighbour of a released block, when there is one and it is free. -/
def free_neighbour : Option MemoryBlock → Option MemoryBlock
  | some x => if x.allocated = false then some x else none
  | none => none

theorem eq_nil_or_snoc (l : List MemoryBlock) : l = [] ∨ ∃ init last, l = init ++ [last] := by
  rcases List.eq_nil_or_concat l with h | ⟨init, last, h⟩
  · exact Or.inl h
  · exact Or.inr ⟨init, last, by simpa using h⟩

theorem tiles_bounds : ∀ (l : List MemoryBlock) (a e : Nat), Tiles a l e →
    ∀ x ∈ l, a ≤ x.start_address ∧ x.start_address + x.size ≤ e := by
  intro l
  induction l with
  | nil => intro a e _ x hx; simp at hx
  | cons c rest ih =>
    intro a e h x hx
    have hend := tiles_le _ _ _ h.2
    rcases List.mem_cons.mp hx with rfl | hx
    · have h1 := h.1
      omega
    · have h2 := ih _ _ h.2 x hx
      omega

theorem fits_below_sentinel_of_tiles (l : List MemoryBlock) (a e : Nat)
    (ht : Tiles a l e) (ha : 0 < a) (he : e < 2 ^ 64) (size : Nat) :
    ∀ b ∈ l, Fits size b → b.size - size < SIZE_MAX := by
  intro b hb _
  have h := tiles_bounds l a e ht b hb
  unfold SIZE_MAX
  omega

theorem run_fits_below_sentinel (arena size : Nat) (s₀ : State) (calls : List Call)
    (hsize : 0 < size) (hfit : arena + size < 2 ^ 64)
    (hinit : initialize_memory arena size = some s₀) (request : Nat) :
    ∀ b ∈ (run s₀ calls).memory_list, Fits request b → b.size - request < SIZE_MAX := by
  unfold initialize_memory at hinit
  split_ifs at hinit with h0
  have hs := Option.some.inj hinit
  have hcov0 : Covered s₀ := by
    rw [← hs]
    exact ⟨hsize, hfit, rfl, rfl⟩
  have hms : s₀.memory_start = arena := by rw [← hs]
  have htot : s₀.total_memory_size = size := by rw [← hs]
  obtain ⟨_, _, ht⟩ := covered_run calls s₀ hcov0
  rw [(run_fields calls s₀).1, (run_fields calls s₀).2, hms, htot] at ht
  exact fits_below_sentinel_of_tiles _ arena (arena + size) ht (by omega) hfit request

theorem tiles_one_block_per_byte (front back : List MemoryBlock) (m : MemoryBlock) (a e : Nat)
    (ht : Tiles a (front ++ m :: back) e) :
    ∀ j x addr, (front ++ m :: back)[j]? = some x →
      m.start_address ≤ addr → addr < m.start_address + m.size →
      x.start_address ≤ addr → addr < x.start_address + x.size → j = front.length := by
  intro j x addr hx h1 h2 h3 h4
  obtain ⟨mid, htf, htm⟩ := (tiles_append front (m :: back) a e).mp ht
  have hm : m.start_address = mid := htm.1
  rcases Nat.lt_trichotomy j front.length with hlt | heq | hgt
  · rw [List.getElem?_append_left hlt] at hx
    have hb := tiles_bounds _ _ _ htf x (List.getElem?_mem hx)
    omega
  · exact heq
  · rw [List.getElem?_append_right (by omega)] at hx
    obtain ⟨k, hk⟩ : ∃ k, j - front.length = k + 1 := ⟨j - front.length - 1, by omega⟩
    rw [hk] at hx
    simp only [List.getElem?_cons_succ] at hx
    have hb := tiles_bounds _ _ _ htm.2 x (List.getElem?_mem hx)
    omega

theorem released_list_shape (pre post : List MemoryBlock) (b : MemoryBlock) (a e : Nat)
    (ht : Tiles a (pre ++ b :: post) e) (he : e < 2 ^ 64) :
    ∃ merged,
      released_list pre b post =
        (if (free_neighbour pre.getLast?).isSome then pre.dropLast else pre) ++
          merged :: (if (free_neighbour post.head?).isSome then post.tail else post) ∧
      merged.allocated = false ∧
      merged.start_address =
        ((free_neighbour pre.getLast?).map fun x => x.start_address).getD b.start_address ∧
      merged.size =
        ((free_neighbour pre.getLast?).map fun x => x.size).getD 0 + b.size +
          ((free_neighbour post.head?).map fun x => x.size).getD 0 ∧
      merged.start_address ≤ b.start_address ∧
      b.start_address + b.size ≤ merged.start_address + merged.size := by
  obtain ⟨mid, htpre, htb⟩ := (tiles_append pre (b :: post) a e).mp ht
  have hbs : b.start_address = mid := htb.1
  have hpost := htb.2
  have hpost_le := tiles_le _ _ _ hpost
  rcases eq_nil_or_snoc pre with rfl | ⟨pre0, p, rfl⟩
  · cases post with
    | nil =>
      exact ⟨freed_block b, by simp [released_list, merge_prev, merge_next, free_neighbour],
        rfl, by simp [free_neighbour, freed_block], by simp [free_neighbour, freed_block],
        by simp [freed_block], by simp [freed_block]⟩
    | cons n r =>
      have hn_le := tiles_le _ _ _ hpost.2
      by_cases hn : n.allocated = false
      · have hw : wrap (b.size + n.size) = b.size + n.size := by
          unfold wrap
          exact Nat.mod_eq_of_lt (by omega)
        refine ⟨{ freed_block b with size := b.size + n.size }, ?_, rfl, ?_, ?_, ?_, ?_⟩
        · simp [released_list, merge_prev, merge_next, free_neighbour, hn, freed_block, hw]
        · simp [free_neighbour, freed_block]
        · simp [free_neighbour, hn]
        · simp [freed_block]
        · simp [freed_block]
      · refine ⟨freed_block b, ?_, rfl, ?_, ?_, ?_, ?_⟩
        · simp [released_list, merge_prev, merge_next, free_neighbour, hn]
        · simp [free_neighbour, freed_block]
        · simp [free_neighbour, hn, freed_block]
        · simp [freed_block]
        · simp [freed_block]
  · obtain ⟨m0, _, htp⟩ := (tiles_append pre0 [p] a mid).mp htpre
    have hps : p.start_address = m0 := htp.1
    have hpe : m0 + p.size = mid := htp.2
    by_cases hp : p.allocated = false
    · have hw0 : wrap (p.size + b.size) = p.size + b.size := by
        unfold wrap
        exact Nat.mod_eq_of_lt (by omega)
      cases post with
      | nil =>
        refine ⟨{ p with size := p.size + b.size }, ?_, hp, ?_, ?_, ?_, ?_⟩
        · simp [released_list, merge_prev, merge_next, free_neighbour, hp, freed_block, hw0]
        · simp [free_neighbour, hp]
        · simp [free_neighbour, hp]
        · simp only []
          omega
        · simp only []
          omega
      | cons n r =>
        have hn_le := tiles_le _ _ _ hpost.2
        by_cases hn : n.allocated = false
        · have hw1 : wrap (p.size + b.size + n.size) = p.size + b.size + n.size := by
            unfold wrap
            exact Nat.mod_eq_of_lt (by omega)
          refine ⟨{ p with size := p.size + b.size + n.size }, ?_, hp, ?_, ?_, ?_, ?_⟩
          · simp [released_list, merge_prev, merge_next, free_neighbour, hp, hn, freed_block,
              hw0, hw1]
          · simp [free_neighbour, hp]
          · simp [free_neighbour, hp, hn]
          · simp only []
            omega
          · simp only []
            omega
        · refine ⟨{ p with size := p.size + b.size }, ?_, hp, ?_, ?_, ?_, ?_⟩
          · simp [released_list, merge_prev, merge_next, free_neighbour, hp, hn, freed_block,
              hw0]
          · simp [free_neighbour, hp]
          · simp [free_neighbour, hp, hn]
          · simp only []
            omega
          · simp only []
            omega
    · cases post with
      | nil =>
        refine ⟨freed_block b, ?_, rfl, ?_, ?_, ?_, ?_⟩
        · simp [released_list, merge_prev, merge_next, free_neighbour, hp]
        · simp [free_neighbour, hp, freed_block]
        · simp [free_neighbour, hp, freed_block]
        · simp [freed_block]
        · simp [freed_block]
      | cons n r =>
        have hn_le := tiles_le _ _ _ hpost.2
        by_cases hn : n.allocated = false
        · have hw : wrap (b.size + n.size) = b.size + n.size := by
            unfold wrap
            exact Nat.mod_eq_of_lt (by omega)
          refine ⟨{ freed_block b with size := b.size + n.size }, ?_, rfl, ?_, ?_, ?_, ?_⟩
          · simp [released_list, merge_prev, merge_next, free_neighbour, hp, hn, freed_block,
              hw]
          · simp [free_neighbour, hp, freed_block]
          · simp [free_neighbour, hp, hn]
          · simp [freed_block]
          · simp [freed_block]
        · refine ⟨freed_block b, ?_, rfl, ?_, ?_, ?_, ?_⟩
          · simp [released_list, merge_prev, merge_next, free_neighbour, hp, hn]
          · simp [free_neighbour, hp, freed_block]
          · simp [free_neighbour, hp, hn, freed_block]
          · simp [freed_block]
          · simp [freed_block]

theorem free_neighbour_last_length (pre : List MemoryBlock) :
    (if (free_neighbour pre.getLast?).isSome then pre.dropLast else pre).length +
      (free_neighbour pre.getLast?).toList.length = pre.length := by
  rcases eq_nil_or_snoc pre with rfl | ⟨pre0, p, rfl⟩
  · simp [free_neighbour]
  · by_cases hp : p.allocated = false <;> simp [free_neighbour, hp]

theorem free_neighbour_head_length (post : List MemoryBlock) :
    (if (free_neighbour post.head?).isSome then post.tail else post).length +
      (free_neighbour post.head?).toList.length = post.length := by
  cases post with
  | nil => simp [free_neighbour]
  | cons n r => by_cases hn : n.allocated = false <;> simp [free_neighbour, hn]

theorem released_list_tiles (process_id : String) (pre post : List MemoryBlock)
    (b : MemoryBlock) (a e : Nat) (ht : Tiles a (pre ++ b :: post) e) (he : e < 2 ^ 64)
    (hpre : ∀ x ∈ pre, ¬ (x.allocated = true ∧ x.process_id = process_id))
    (hb : b.allocated = true ∧ b.process_id = process_id) :
    Tiles a (released_list pre b post) e := by
  have h := release_from_split process_id b post hb pre none hpre
  have h2 := tiles_release_from process_id e he (pre ++ b :: post) none a _ (by simpa using ht) h
  simpa using h2

theorem released_list_noFreePair (process_id : String) (pre post : List MemoryBlock)
    (b : MemoryBlock) (hf : NoFreePair false (pre ++ b :: post))
    (hpre : ∀ x ∈ pre, ¬ (x.allocated = true ∧ x.process_id = process_id))
    (hb : b.allocated = true ∧ b.process_id = process_id) :
    NoFreePair false (released_list pre b post) := by
  have h := release_from_split process_id b post hb pre none hpre
  have h2 := noFreePair_release_from process_id (pre ++ b :: post) none false _
    (fun _ => rfl) (by simpa using hf) h
  simpa using h2

/-- C12. Take a block list `pre ++ b :: post` that is contiguous inside the
64-bit address space and has no two adjacent free blocks, where `b` is the block
`release_memory` releases for the owner (the first allocated block of that
owner).  Afterwards the list is `pre` without its last block if that block was
free, then one block `merged`, then `post` without its first block if that
block was free.  `merged` is free; it starts at the start of the free left
neighbour if there is one and at the start of `b` otherwise (the lowest start
among the merged blocks); its size is the size of `b` plus the sizes of the
free neighbours; it covers the original extent of `b`; it is the only block of
the list that holds a byte of that extent, and no block next to it is free.
The number of blocks drops by the number of free neighbours merged. -/
theorem release_memory_merges_free_neighbours (pre post : List MemoryBlock)
    (b : MemoryBlock) (process_id : String) (a e : Nat)
    (hcont : Tiles a (pre ++ b :: post) e) (he : e < 2 ^ 64)
    (hfree : NoFreePair false (pre ++ b :: post))
    (hfirst : ∀ x ∈ pre, ¬ (x.allocated = true ∧ x.process_id = process_id))
    (hb : b.allocated = true ∧ b.process_id = process_id) :
    ∃ merged,
      (release_memory (pre ++ b :: post) process_id).2 =
        (if (free_neighbour pre.getLast?).isSome then pre.dropLast else pre) ++
          merged :: (if (free_neighbour post.head?).isSome then post.tail else post) ∧
      merged.allocated = false ∧
      merged.start_address =
        ((free_neighbour pre.getLast?).map fun x => x.start_address).getD b.start_address ∧
      merged.size =
        ((free_neighbour pre.getLast?).map fun x => x.size).getD 0 + b.size +
          ((free_neighbour post.head?).map fun x => x.size).getD 0 ∧
      merged.start_address ≤ b.start_address ∧
      b.start_address + b.size ≤ merged.start_address + merged.size ∧
      (∀ j x addr, (release_memory (pre ++ b :: post) process_id).2[j]? = some x →
        b.start_address ≤ addr → addr < b.start_address + b.size →
        x.start_address ≤ addr → addr < x.start_address + x.size →
        j = (if (free_neighbour pre.getLast?).isSome then pre.dropLast else pre).length) ∧
      (∀ i x y, (release_memory (pre ++ b :: post) process_id).2[i]? = some x →
        (release_memory (pre ++ b :: post) process_id).2[i + 1]? = some y →
        ¬ (x.allocated = false ∧ y.allocated = false)) ∧
      (release_memory (pre ++ b :: post) process_id).2.length +
        (free_neighbour pre.getLast?).toList.length +
        (free_neighbour post.head?).toList.length = (pre ++ b :: post).length := by
  have hres := release_memory_split process_id pre b post hfirst hb
  have htiles := released_list_tiles process_id pre post b a e hcont he hfirst hb
  have hnf := released_list_noFreePair process_id pre post b hfree hfirst hb
  obtain ⟨merged, hshape, hm1, hm2, hm3, hm4, hm5⟩ := released_list_shape pre post b a e hcont he
  refine ⟨merged, ?_, hm1, hm2, hm3, hm4, hm5, ?_, ?_, ?_⟩
  · rw [hres]
    exact hshape
  · intro j x addr hx h1 h2 h3 h4
    rw [hres] at hx
    simp only [] at hx
    rw [hshape] at hx htiles
    exact tiles_one_block_per_byte _ _ merged a e htiles j x addr hx (by omega) (by omega) h3 h4
  · rw [hres]
    exact noFreePair_pairs _ false hnf
  · rw [hres]
    simp only []
    rw [hshape]
    have h1 := free_neighbour_last_length pre
    have h2 := free_neighbour_head_length post
    simp only [List.length_append, List.length_cons] at h1 h2 ⊢
    omega

/-- C12 at a concrete list: the released block `[1020, 1050)` has a free block
on each side, and the three blocks become one. -/
theorem release_memory_merges_free_neighbours_witness :
    Tiles 1000 ([free_at 1000 20] ++ owned_at 1020 30 "P2" :: [free_at 1050 50]) 1100 ∧
    NoFreePair false ([free_at 1000 20] ++ owned_at 1020 30 "P2" :: [free_at 1050 50]) ∧
    ∃ merged,
      (release_memory ([free_at 1000 20] ++ owned_at 1020 30 "P2" :: [free_at 1050 50])
        "P2").2 = [merged] ∧ merged.size = 100 := by
  have ht : Tiles 1000 ([free_at 1000 20] ++ owned_at 1020 30 "P2" :: [free_at 1050 50])
      1100 := ⟨rfl, rfl, rfl, rfl⟩
  have hf : NoFreePair false
      ([free_at 1000 20] ++ owned_at 1020 30 "P2" :: [free_at 1050 50]) := by
    simp [NoFreePair, free_at, owned_at]
  obtain ⟨merged, h1, _, _, h4, _⟩ :=
    release_memory_merges_free_neighbours [free_at 1000 20] [free_at 1050 50]
      (owned_at 1020 30 "P2") "P2" 1000 1100 ht (by decide) hf (by decide) (by decide)
  exact ⟨ht, hf, merged, h1, h4⟩

/-! ## `release_memory` against a full coalescing pass -/

/-- Scan of the specification's `coalesce_adjacent`, with `cur` the block that
is being grown: while the next block and `cur` are both free, `cur` absorbs it
(it keeps its start, the lower one, and takes the word-sized sum of the two
sizes); otherwise `cur` is final and the scan goes on from the next block. -/
def coalesce_into (cur : MemoryBlock) : List MemoryBlock → List MemoryBlock
  | [] => [cur]
  | next :: rest =>
    if cur.allocated = false ∧ next.allocated = false then
      coalesce_into { cur with size := wrap (cur.size + next.size) } rest
    else cur :: coalesce_into next rest

/-- The operation `coalesce_adjacent` of the specification (section 4.1), which
the C program does not have as a function: merge every pair of consecutive free
blocks into one (sum of the sizes, lower start), until no two neighbours are
both free. -/
def coalesce_adjacent : List MemoryBlock → List MemoryBlock
  | [] => []
  | first :: rest => coalesce_into first rest

theorem noFreePair_of_pairs : ∀ (l : List MemoryBlock) (pf : Bool),
    (∀ x, l.head? = some x → ¬ (pf = true ∧ x.allocated = false)) →
    (∀ i x y, l[i]? = some x → l[i + 1]? = some y →
      ¬ (x.allocated = false ∧ y.allocated = false)) →
    NoFreePair pf l := by
  intro l
  induction l with
  | nil => intro pf _ _; trivial
  | cons b rest ih =>
    intro pf hhead hpairs
    refine ⟨hhead b rfl, ih _ ?_ ?_⟩
    · intro x hx hbad
      cases rest with
      | nil => simp at hx
      | cons c r =>
        simp at hx
        subst hx
        exact hpairs 0 b c (by simp) (by simp) ⟨by simpa using hbad.1, hbad.2⟩
    · intro i x y hx hy
      exact hpairs (i + 1) x y (by simpa using hx) (by simpa using hy)

theorem coalesce_into_id : ∀ (rest : List MemoryBlock) (cur : MemoryBlock),
    NoFreePair (!cur.allocated) rest → coalesce_into cur rest = cur :: rest := by
  intro rest
  induction rest with
  | nil => intro cur _; rfl
  | cons n r ih =>
    intro cur h
    have h1 : ¬ (cur.allocated = false ∧ n.allocated = false) := by
      intro hbad
      exact h.1 ⟨by simp [hbad.1], hbad.2⟩
    simp only [coalesce_into, if_neg h1]
    rw [ih n h.2]

theorem coalesce_into_merge_next (cur : MemoryBlock) (hcur : cur.allocated = false) :
    ∀ post : List MemoryBlock, NoFreePair false post →
    coalesce_into cur post = merge_next cur post := by
  intro post h
  cases post with
  | nil => rfl
  | cons n r =>
    by_cases hn : n.allocated = false
    · have h2 : NoFreePair true r := by simpa [hn] using h.2
      simp only [coalesce_into, merge_next, if_pos hn, if_pos (And.intro hcur hn)]
      exact coalesce_into_id r _ (by simpa [hcur] using h2)
    · have h1 : ¬ (cur.allocated = false ∧ n.allocated = false) := fun hbad => hn hbad.2
      simp only [coalesce_into, merge_next, if_neg hn, if_neg h1]
      rw [coalesce_into_id r n h.2]

theorem coalesce_into_released (b : MemoryBlock) (post : List MemoryBlock)
    (hb : b.allocated = true) :
    ∀ (pre : List MemoryBlock) (cur : MemoryBlock),
    NoFreePair (!cur.allocated) (pre ++ b :: post) →
    coalesce_into cur (pre ++ freed_block b :: post) = released_list (cur :: pre) b post := by
  intro pre
  induction pre with
  | nil =>
    intro cur h
    have hpost : NoFreePair false post := by simpa [hb] using h.2
    have e1 : released_list [cur] b post =
        (merge_prev (some cur) (freed_block b)).1 ++
          merge_next (merge_prev (some cur) (freed_block b)).2 post := by
      simp [released_list]
    rw [e1, List.nil_append]
    by_cases hc : cur.allocated = false
    · have hboth : cur.allocated = false ∧ (freed_block b).allocated = false := ⟨hc, rfl⟩
      simp only [coalesce_into, if_pos hboth, merge_prev, if_pos hc, List.nil_append]
      exact coalesce_into_merge_next
        { cur with size := wrap (cur.size + (freed_block b).size) } hc post hpost
    · have hboth : ¬ (cur.allocated = false ∧ (freed_block b).allocated = false) :=
        fun hbad => hc hbad.1
      simp only [coalesce_into, if_neg hboth, merge_prev, if_neg hc, List.singleton_append]
      rw [coalesce_into_merge_next _ rfl post hpost]
  | cons x rest ih =>
    intro cur h
    have h1 : ¬ (cur.allocated = false ∧ x.allocated = false) := by
      intro hbad
      exact h.1 ⟨by simp [hbad.1], hbad.2⟩
    rw [List.cons_append]
    simp only [coalesce_into, if_neg h1]
    rw [ih x h.2]
    simp only [released_list]
    rw [List.dropLast_cons_of_ne_nil (List.cons_ne_nil x rest)]
    simp

/-- C17. For every block list with no two adjacent free blocks and every owner
held by some allocated block, write the list as `pre ++ b :: post` with `b` the
block `release_memory` releases (the first allocated block of the owner).  The
list `release_memory` produces, which only merges with the block before and the
block after `b`, equals the list obtained by marking `b` free with empty owner
and running the full `coalesce_adjacent` pass over the whole list. -/
theorem release_memory_eq_full_coalesce (l : List MemoryBlock) (process_id : String)
    (hfree : NoFreePair false l)
    (h : ∃ x ∈ l, x.allocated = true ∧ x.process_id = process_id) :
    ∃ pre b post, l = pre ++ b :: post ∧
      (∀ x ∈ pre, ¬ (x.allocated = true ∧ x.process_id = process_id)) ∧
      b.allocated = true ∧ b.process_id = process_id ∧
      (release_memory l process_id).2 =
        coalesce_adjacent (pre ++ freed_block b :: post) := by
  obtain ⟨pre, b, post, e, hpre, hb1, hb2⟩ := exists_first_match process_id l h
  refine ⟨pre, b, post, e, hpre, hb1, hb2, ?_⟩
  rw [e, release_memory_split process_id pre b post hpre ⟨hb1, hb2⟩]
  rw [e] at hfree
  cases pre with
  | nil =>
    have hpost : NoFreePair false post := by simpa [hb1] using hfree.2
    simp only [List.nil_append, coalesce_adjacent]
    rw [coalesce_into_merge_next _ rfl post hpost]
    simp [released_list, merge_prev]
  | cons x rest =>
    rw [List.cons_append]
    simp only [coalesce_adjacent]
    rw [coalesce_into_released b post hb1 rest x hfree.2]

/-- C17 at a concrete list: the released block has a free block on each side. -/
theorem release_memory_eq_full_coalesce_witness :
    NoFreePair false [free_at 1000 20, owned_at 1020 30 "P2", free_at 1050 50] ∧
    (release_memory [free_at 1000 20, owned_at 1020 30 "P2", free_at 1050 50] "P2").2 =
      [free_at 1000 100] ∧
    coalesce_adjacent [free_at 1000 20, freed_block (owned_at 1020 30 "P2"), free_at 1050 50] =
      [free_at 1000 100] := by
  have hf : NoFreePair false [free_at 1000 20, owned_at 1020 30 "P2", free_at 1050 50] := by
    simp [NoFreePair, free_at, owned_at]
  obtain ⟨_, _, _, _, _, _, _, _⟩ :=
    release_memory_eq_full_coalesce
      [free_at 1000 20, owned_at 1020 30 "P2", free_at 1050 50] "P2" hf
      ⟨owned_at 1020 30 "P2", by decide, by decide⟩
  exact ⟨hf, by decide, by decide⟩

/-! ## Closed form of `compact_memory` -/

/-- First half of the operation `rebuild` of the specification (section 4.1):
the given blocks laid back-to-back from address `a`, each allocated with its
own size and owner. -/
def lay_out : Nat → List MemoryBlock → List MemoryBlock
  | _, [] => []
  | a, b :: rest => owned_at a b.size b.process_id :: lay_out (a + b.size) rest

theorem allocated_bytes_eq_filter : ∀ l : List MemoryBlock,
    allocated_bytes l = total_bytes (l.filter fun x => x.allocated) := by
  intro l
  induction l with
  | nil => rfl
  | cons b rest ih =>
    by_cases hb : b.allocated = true
    · simp only [allocated_bytes, if_pos hb, List.filter_cons, hb, if_true, total_bytes,
        List.map_cons, List.sum_cons] at ih ⊢
      rw [ih]
    · have hb2 : b.allocated = false := by simpa using hb
      simp only [allocated_bytes, if_neg hb, List.filter_cons, hb2, total_bytes] at ih ⊢
      simpa using ih

theorem compact_from_eq_lay_out : ∀ (l : List MemoryBlock) (a : Nat),
    a + allocated_bytes l < 2 ^ 64 →
    (compact_from l a).1 = lay_out a (l.filter fun x => x.allocated) := by
  intro l
  induction l with
  | nil => intro a _; rfl
  | cons cur rest ih =>
    intro a ha
    by_cases hc : cur.allocated = true
    · simp only [allocated_bytes, if_pos hc] at ha
      have e1 : wrap (a + cur.size) = a + cur.size := by
        unfold wrap
        exact Nat.mod_eq_of_lt (by omega)
      simp only [compact_from, if_pos hc, e1, List.filter_cons, hc, if_true, lay_out, owned_at]
      rw [ih (a + cur.size) (by omega)]
    · have hc2 : cur.allocated = false := by simpa using hc
      simp only [allocated_bytes, if_neg hc] at ha
      simp only [compact_from, if_neg hc, List.filter_cons, hc2]
      simpa using ih a ha

theorem tiles_lay_out : ∀ (l : List MemoryBlock) (a : Nat),
    Tiles a (lay_out a l) (a + total_bytes l) := by
  intro l
  induction l with
  | nil => intro a; simp [lay_out, Tiles, total_bytes]
  | cons b rest ih =>
    intro a
    refine ⟨rfl, ?_⟩
    have h := ih (a + b.size)
    simp only [total_bytes, List.map_cons, List.sum_cons, owned_at] at h ⊢
    rw [← Nat.add_assoc]
    exact h

theorem lay_out_fields : ∀ (l : List MemoryBlock) (a : Nat),
    (lay_out a l).map (fun x => (x.size, x.process_id)) =
      l.map (fun x => (x.size, x.process_id)) ∧
    (∀ x ∈ lay_out a l, x.allocated = true) ∧
    (lay_out a l).length = l.length := by
  intro l
  induction l with
  | nil => intro a; simp [lay_out]
  | cons b rest ih =>
    intro a
    obtain ⟨h1, h2, h3⟩ := ih (a + b.size)
    refine ⟨by simp [lay_out, owned_at, h1], ?_, by simp [lay_out, h3]⟩
    intro x hx
    rcases List.mem_cons.mp hx with rfl | hx
    · rfl
    · exact h2 x hx

theorem allocated_bytes_append : ∀ l₁ l₂ : List MemoryBlock,
    allocated_bytes (l₁ ++ l₂) = allocated_bytes l₁ + allocated_bytes l₂ := by
  intro l₁ l₂
  induction l₁ with
  | nil => simp [allocated_bytes]
  | cons b rest ih =>
    rw [List.cons_append]
    simp only [allocated_bytes]
    rw [ih]
    split_ifs <;> omega

theorem allocated_bytes_lay_out : ∀ (l : List MemoryBlock) (a : Nat),
    allocated_bytes (lay_out a l) = total_bytes l := by
  intro l
  induction l with
  | nil => intro a; rfl
  | cons b rest ih =>
    intro a
    simp only [lay_out, allocated_bytes, owned_at, if_true, ih, total_bytes, List.map_cons,
      List.sum_cons]

theorem compact_memory_eq (memory_start total_memory_size : Nat) (l : List MemoryBlock)
    (hsum : total_bytes l = total_memory_size)
    (hfit : memory_start + total_memory_size < 2 ^ 64) :
    compact_memory memory_start total_memory_size l =
      lay_out memory_start (l.filter fun x => x.allocated) ++
        (if allocated_bytes l < total_memory_size then
          [free_at (memory_start + allocated_bytes l)
            (total_memory_size - allocated_bytes l)]
         else []) := by
  have hle := allocated_bytes_le_total l
  have hlay := compact_from_eq_lay_out l memory_start (by omega)
  obtain ⟨h1, _, _⟩ := compact_from_spec l memory_start (by omega)
  have e1 : wrap (memory_start + total_memory_size) = memory_start + total_memory_size := by
    unfold wrap
    exact Nat.mod_eq_of_lt hfit
  simp only [compact_memory, e1, h1, hlay]
  by_cases hlt : allocated_bytes l < total_memory_size
  · have hlt2 : memory_start + allocated_bytes l < memory_start + total_memory_size := by
      omega
    have e2 : memory_start + total_memory_size - (memory_start + allocated_bytes l) =
        total_memory_size - allocated_bytes l := by omega
    simp only [if_pos hlt, if_pos hlt2, e2, free_at]
  · have hlt2 : ¬ memory_start + allocated_bytes l < memory_start + total_memory_size := by
      omega
    simp only [if_neg hlt, if_neg hlt2, List.append_nil]

theorem tiles_compact_memory_of_sum (memory_start total_memory_size : Nat)
    (l : List MemoryBlock) (hsum : total_bytes l = total_memory_size)
    (hfit : memory_start + total_memory_size < 2 ^ 64) :
    Tiles memory_start (compact_memory memory_start total_memory_size l)
      (memory_start + total_memory_size) := by
  have heq := compact_memory_eq memory_start total_memory_size l hsum hfit
  have hle := allocated_bytes_le_total l
  have hlay := tiles_lay_out (l.filter fun x => x.allocated) memory_start
  rw [← allocated_bytes_eq_filter] at hlay
  rw [heq]
  refine (tiles_append _ _ _ _).mpr ⟨_, hlay, ?_⟩
  by_cases hlt : allocated_bytes l < total_memory_size
  · simp only [if_pos hlt]
    refine ⟨rfl, ?_⟩
    show memory_start + allocated_bytes l + (total_memory_size - allocated_bytes l) =
      memory_start + total_memory_size
    omega
  · simp only [if_neg hlt]
    show memory_start + allocated_bytes l = memory_start + total_memory_size
    omega

/-- C13. For every block list whose sizes sum to the total size of an arena
that ends below `2 ^ 64` (the list need not even be contiguous),
`compact_memory` yields the previously allocated blocks in their order, each
allocated with its original size and owner, laid back-to-back from the base of
the arena, followed by exactly one free block of size `total - allocated` when
that remainder is positive and by no free block when it is zero.  The result
tiles the arena and the total of allocated bytes is unchanged. -/
theorem compact_memory_lays_out_allocated (memory_start total_memory_size : Nat)
    (l : List MemoryBlock) (hsum : total_bytes l = total_memory_size)
    (hfit : memory_start + total_memory_size < 2 ^ 64) :
    compact_memory memory_start total_memory_size l =
      lay_out memory_start (l.filter fun x => x.allocated) ++
        (if 0 < total_memory_size - allocated_bytes l then
          [free_at (memory_start + allocated_bytes l)
            (total_memory_size - allocated_bytes l)]
         else []) ∧
    (lay_out memory_start (l.filter fun x => x.allocated)).map
        (fun x => (x.size, x.process_id)) =
      (l.filter fun x => x.allocated).map (fun x => (x.size, x.process_id)) ∧
    (∀ x ∈ lay_out memory_start (l.filter fun x => x.allocated), x.allocated = true) ∧
    Tiles memory_start (lay_out memory_start (l.filter fun x => x.allocated))
      (memory_start + allocated_bytes l) ∧
    Tiles memory_start (compact_memory memory_start total_memory_size l)
      (memory_start + total_memory_size) ∧
    allocated_bytes (compact_memory memory_start total_memory_size l) = allocated_bytes l := by
  have heq := compact_memory_eq memory_start total_memory_size l hsum hfit
  have hle := allocated_bytes_le_total l
  have hfields := lay_out_fields (l.filter fun x => x.allocated) memory_start
  have hlay := tiles_lay_out (l.filter fun x => x.allocated) memory_start
  rw [← allocated_bytes_eq_filter] at hlay
  have hcond : (0 < total_memory_size - allocated_bytes l) ↔
      allocated_bytes l < total_memory_size := by omega
  refine ⟨?_, hfields.1, hfields.2.1, hlay, ?_, ?_⟩
  · rw [heq]
    simp only [hcond]
  · rw [heq]
    refine (tiles_append _ _ _ _).mpr ⟨_, hlay, ?_⟩
    by_cases hlt : allocated_bytes l < total_memory_size
    · simp only [if_pos hlt]
      refine ⟨rfl, ?_⟩
      show memory_start + allocated_bytes l + (total_memory_size - allocated_bytes l) =
        memory_start + total_memory_size
      omega
    · simp only [if_neg hlt]
      show memory_start + allocated_bytes l = memory_start + total_memory_size
      omega
  · rw [heq, allocated_bytes_append, allocated_bytes_lay_out, ← allocated_bytes_eq_filter]
    split_ifs <;> simp [allocated_bytes, free_at]

/-- C13 at a concrete list: `[free 20, P2 30, free 50]` in a 100-byte arena at 1000. -/
theorem compact_memory_lays_out_allocated_witness :
    total_bytes [free_at 1000 20, owned_at 1020 30 "P2", free_at 1050 50] = 100 ∧
    compact_memory 1000 100 [free_at 1000 20, owned_at 1020 30 "P2", free_at 1050 50] =
      [owned_at 1000 30 "P2", free_at 1030 70] :=
  ⟨by decide,
   (compact_memory_lays_out_allocated 1000 100
      [free_at 1000 20, owned_at 1020 30 "P2", free_at 1050 50]
      (by decide) (by decide)).1.trans (by decide)⟩

theorem compact_from_idem : ∀ (l : List MemoryBlock) (a : Nat),
    compact_from (compact_from l a).1 a = compact_from l a := by
  intro l
  induction l with
  | nil => intro a; rfl
  | cons cur rest ih =>
    intro a
    by_cases hc : cur.allocated = true
    · simp only [compact_from, if_pos hc, if_true]
      rw [ih (wrap (a + cur.size))]
    · simp only [compact_from, if_neg hc]
      exact ih a

theorem compact_from_append_free (f : MemoryBlock) (hf : f.allocated = false) :
    ∀ (l : List MemoryBlock) (a : Nat), compact_from (l ++ [f]) a = compact_from l a := by
  intro l
  induction l with
  | nil =>
    intro a
    simp [compact_from, hf]
  | cons cur rest ih =>
    intro a
    rw [List.cons_append]
    by_cases hc : cur.allocated = true
    · simp only [compact_from, if_pos hc]
      rw [ih (wrap (a + cur.size))]
    · simp only [compact_from, if_neg hc]
      exact ih a

/-- C20. `compact_memory` is idempotent: for every block list (contiguous or
not), compacting the compacted list gives the same list again, with the same
starts, sizes, allocation flags and owners in the same order. -/
theorem compact_memory_idempotent (memory_start total_memory_size : Nat)
    (l : List MemoryBlock) :
    compact_memory memory_start total_memory_size
        (compact_memory memory_start total_memory_size l) =
      compact_memory memory_start total_memory_size l := by
  by_cases hlt : (compact_from l memory_start).2 < wrap (memory_start + total_memory_size)
  · have e1 : compact_memory memory_start total_memory_size l =
        (compact_from l memory_start).1 ++
          [{ start_address := (compact_from l memory_start).2,
             size := wrap (memory_start + total_memory_size) - (compact_from l memory_start).2,
             allocated := false, process_id := "" }] := by
      simp only [compact_memory, if_pos hlt]
    rw [e1]
    simp only [compact_memory]
    rw [compact_from_append_free _ rfl, compact_from_idem]
    simp only [if_pos hlt]
  · have e1 : compact_memory memory_start total_memory_size l =
        (compact_from l memory_start).1 := by
      simp only [compact_memory, if_neg hlt]
    rw [e1]
    simp only [compact_memory]
    rw [compact_from_idem]
    simp only [if_neg hlt]

/-! ## Allocation right after compaction -/

theorem size_le_total_bytes : ∀ (l : List MemoryBlock), ∀ x ∈ l, x.size ≤ total_bytes l := by
  intro l
  induction l with
  | nil => intro x hx; simp at hx
  | cons b rest ih =>
    intro x hx
    simp only [total_bytes, List.map_cons, List.sum_cons] at ih ⊢
    rcases List.mem_cons.mp hx with rfl | hx
    · omega
    · have h := ih x hx
      omega

theorem select_fit_after_allocated (front : List MemoryBlock) (f : MemoryBlock) (n : Nat)
    (strategy : Char) (hs : strategy = 'F' ∨ strategy = 'B' ∨ strategy = 'W')
    (hfront : ∀ x ∈ front, x.allocated = true) (hf : Fits n f) (hn : 0 < n)
    (hword : ∀ x ∈ front ++ [f], x.size ≤ SIZE_MAX) :
    select_fit (front ++ [f]) n strategy = some (some front.length) := by
  have hv := select_fit_valid (front ++ [f]) n strategy hs
  cases hsel : select_fit (front ++ [f]) n strategy with
  | none => exact absurd hsel hv
  | some r =>
    cases r with
    | none =>
      have hno := (select_fit_none_iff (front ++ [f]) n strategy hs hn hword).mp hsel
      exact absurd hf (hno f (by simp))
    | some i =>
      obtain ⟨c, hc, hfc⟩ := select_fit_sound (front ++ [f]) n strategy i hsel
      have hi : i = front.length := by
        rcases Nat.lt_trichotomy i front.length with hlt | heq | hgt
        · rw [List.getElem?_append_left hlt] at hc
          have h1 := hfront c (List.getElem?_mem hc)
          rw [hfc.1] at h1
          exact absurd h1 (by simp)
        · exact heq
        · rw [List.getElem?_append_right (by omega)] at hc
          obtain ⟨k, hk⟩ : ∃ k, i - front.length = k + 1 := ⟨i - front.length - 1, by omega⟩
          rw [hk] at hc
          simp at hc
      rw [hi]

/-- C19. Take a block list whose sizes sum to the total size of an arena that
ends below `2 ^ 64`, compact it, and then request `n > 0` bytes.  When
`n ≤ total - allocated`, each strategy `F`, `B`, `W` selects the same block, the
trailing free block (the position right after the allocated blocks), and the
call yields the same report and the same list: the allocated blocks, the new
block at `memory_start + allocated`, and a free remainder when `n` is smaller
than the free space.  Otherwise each strategy reports not-enough-memory and
leaves the list unchanged.  So the call succeeds if and only if
`n ≤ total - allocated`. -/
theorem allocate_after_compact (memory_start total_memory_size : Nat) (l : List MemoryBlock)
    (process_id : String) (n : Nat) (hsum : total_bytes l = total_memory_size)
    (hfit : memory_start + total_memory_size < 2 ^ 64) (hn : 0 < n) :
    (n ≤ total_memory_size - allocated_bytes l →
      ∀ strategy, strategy = 'F' ∨ strategy = 'B' ∨ strategy = 'W' →
        select_fit (compact_memory memory_start total_memory_size l) n strategy =
          some (some (l.filter fun x => x.allocated).length) ∧
        allocate_memory (compact_memory memory_start total_memory_size l) process_id n
            strategy =
          (Report.allocated n process_id (memory_start + allocated_bytes l),
           lay_out memory_start (l.filter fun x => x.allocated) ++
             (owned_at (memory_start + allocated_bytes l) n process_id ::
               (if n < total_memory_size - allocated_bytes l then
                  [free_at (memory_start + allocated_bytes l + n)
                    (total_memory_size - allocated_bytes l - n)]
                else [])))) ∧
    (¬ n ≤ total_memory_size - allocated_bytes l →
      ∀ strategy, strategy = 'F' ∨ strategy = 'B' ∨ strategy = 'W' →
        allocate_memory (compact_memory memory_start total_memory_size l) process_id n
            strategy =
          (Report.not_enough_memory n process_id,
           compact_memory memory_start total_memory_size l)) ∧
    (∀ strategy, strategy = 'F' ∨ strategy = 'B' ∨ strategy = 'W' →
      ((∃ address,
          (allocate_memory (compact_memory memory_start total_memory_size l) process_id n
            strategy).1 = Report.allocated n process_id address) ↔
        n ≤ total_memory_size - allocated_bytes l)) := by
  have heq := compact_memory_eq memory_start total_memory_size l hsum hfit
  have hle := allocated_bytes_le_total l
  have hfields := lay_out_fields (l.filter fun x => x.allocated) memory_start
  have htiles := (tiles_compact_memory_of_sum memory_start total_memory_size l hsum hfit)
  have htot : total_bytes (compact_memory memory_start total_memory_size l) =
      total_memory_size := by
    have h := tiles_total _ _ _ htiles
    omega
  have hword : ∀ x ∈ compact_memory memory_start total_memory_size l, x.size ≤ SIZE_MAX := by
    intro x hx
    have h := size_le_total_bytes _ x hx
    rw [htot] at h
    unfold SIZE_MAX
    omega
  have hyes : n ≤ total_memory_size - allocated_bytes l →
      ∀ strategy, strategy = 'F' ∨ strategy = 'B' ∨ strategy = 'W' →
        select_fit (compact_memory memory_start total_memory_size l) n strategy =
          some (some (l.filter fun x => x.allocated).length) ∧
        allocate_memory (compact_memory memory_start total_memory_size l) process_id n
            strategy =
          (Report.allocated n process_id (memory_start + allocated_bytes l),
           lay_out memory_start (l.filter fun x => x.allocated) ++
             (owned_at (memory_start + allocated_bytes l) n process_id ::
               (if n < total_memory_size - allocated_bytes l then
                  [free_at (memory_start + allocated_bytes l + n)
                    (total_memory_size - allocated_bytes l - n)]
                else []))) := by
    intro hfits strategy hs
    have hlt : allocated_bytes l < total_memory_size := by omega
    rw [if_pos hlt] at heq
    rw [heq] at hword ⊢
    have hsel := select_fit_after_allocated
      (lay_out memory_start (l.filter fun x => x.allocated))
      (free_at (memory_start + allocated_bytes l) (total_memory_size - allocated_bytes l))
      n strategy hs hfields.2.1 ⟨rfl, hfits⟩ hn hword
    have hlen := hfields.2.2
    rw [hlen] at hsel
    refine ⟨hsel, ?_⟩
    have hget : (lay_out memory_start (l.filter fun x => x.allocated) ++
        [free_at (memory_start + allocated_bytes l)
          (total_memory_size - allocated_bytes l)])[(l.filter fun x => x.allocated).length]? =
        some (free_at (memory_start + allocated_bytes l)
          (total_memory_size - allocated_bytes l)) := by
      rw [List.getElem?_append_right (by omega), hlen]
      simp
    rw [allocate_memory_of_select _ process_id n strategy _ _ hsel hget]
    have hw : wrap (memory_start + allocated_bytes l + n) =
        memory_start + allocated_bytes l + n := by
      unfold wrap
      exact Nat.mod_eq_of_lt (by omega)
    have htake : List.take (l.filter fun x => x.allocated).length
        (lay_out memory_start (l.filter fun x => x.allocated) ++
          [free_at (memory_start + allocated_bytes l)
            (total_memory_size - allocated_bytes l)]) =
        lay_out memory_start (l.filter fun x => x.allocated) := by
      rw [← hlen]
      simp
    have hdrop : List.drop ((l.filter fun x => x.allocated).length + 1)
        (lay_out memory_start (l.filter fun x => x.allocated) ++
          [free_at (memory_start + allocated_bytes l)
            (total_memory_size - allocated_bytes l)]) = [] := by
      rw [← hlen]
      simp
    rw [htake, hdrop]
    by_cases hsplit : n < total_memory_size - allocated_bytes l
    · simp [hsplit, claim_block, remainder_block, free_at, owned_at, hw]
    · simp [hsplit, claim_block, free_at, owned_at]
  have hno : ¬ n ≤ total_memory_size - allocated_bytes l →
      ∀ strategy, strategy = 'F' ∨ strategy = 'B' ∨ strategy = 'W' →
        allocate_memory (compact_memory memory_start total_memory_size l) process_id n
            strategy =
          (Report.not_enough_memory n process_id,
           compact_memory memory_start total_memory_size l) := by
    intro hbig strategy hs
    have hnone : ∀ x ∈ compact_memory memory_start total_memory_size l, ¬ Fits n x := by
      intro x hx hfx
      rw [heq] at hx
      rcases List.mem_append.mp hx with hx | hx
      · have h1 := hfields.2.1 x hx
        rw [hfx.1] at h1
        exact absurd h1 (by simp)
      · by_cases hlt : allocated_bytes l < total_memory_size
        · rw [if_pos hlt] at hx
          have hx2 : x = free_at (memory_start + allocated_bytes l)
              (total_memory_size - allocated_bytes l) := by simpa using hx
          have h2 := hfx.2
          rw [hx2] at h2
          simp only [free_at] at h2
          omega
        · rw [if_neg hlt] at hx
          simp at hx
    have hsel := (select_fit_none_iff _ n strategy hs hn hword).mpr hnone
    simp only [allocate_memory, hsel]
  refine ⟨hyes, hno, ?_⟩
  intro strategy hs
  constructor
  · rintro ⟨address, haddr⟩
    by_contra hbig
    rw [hno hbig strategy hs] at haddr
    exact absurd haddr (by simp)
  · intro hfits
    exact ⟨_, by rw [(hyes hfits strategy hs).2]⟩

/-- C19 at a concrete list: 40 bytes requested after compacting
`[free 20, P2 30, free 50]`; the three strategies give the same list. -/
theorem allocate_after_compact_witness :
    total_bytes [free_at 1000 20, owned_at 1020 30 "P2", free_at 1050 50] = 100 ∧
    allocate_memory
        (compact_memory 1000 100 [free_at 1000 20, owned_at 1020 30 "P2", free_at 1050 50])
        "P3" 40 'W' =
      (Report.allocated 40 "P3" 1030,
       [owned_at 1000 30 "P2", owned_at 1030 40 "P3", free_at 1070 30]) :=
  ⟨by decide,
   (((allocate_after_compact 1000 100
      [free_at 1000 20, owned_at 1020 30 "P2", free_at 1050 50] "P3" 40
      (by decide) (by decide) (by decide)).1 (by decide) 'W' (by decide)).2).trans
     (by decide)⟩

/-! ## Allocated blocks are not touched by allocation and release -/

theorem split_at_getElem : ∀ (l : List MemoryBlock) (i : Nat) (c : MemoryBlock),
    l[i]? = some c → l = l.take i ++ c :: l.drop (i + 1) := by
  intro l
  induction l with
  | nil => intro i c hc; simp at hc
  | cons b rest ih =>
    intro i c hc
    cases i with
    | zero =>
      simp at hc
      subst hc
      rfl
    | succ i =>
      simp at hc
      have h := ih i c hc
      simp only [List.take_succ_cons, List.drop_succ_cons, List.cons_append]
      rw [← h]

theorem compact_from_fields : ∀ (l : List MemoryBlock) (a : Nat),
    (compact_from l a).1.map (fun x => (x.size, x.process_id)) =
      (l.filter fun x => x.allocated).map (fun x => (x.size, x.process_id)) := by
  intro l
  induction l with
  | nil => intro a; rfl
  | cons cur rest ih =>
    intro a
    by_cases hc : cur.allocated = true
    · simp only [compact_from, if_pos hc, List.filter_cons, hc, if_true, List.map_cons]
      rw [ih (wrap (a + cur.size))]
    · have hc2 : cur.allocated = false := by simpa using hc
      simp only [compact_from, if_neg hc, List.filter_cons, hc2]
      simpa using ih a

/-- C18. `allocate_memory` and `release_memory` never move or alter an
allocated block.  For every block list and arguments: `allocate_memory` either
fails and leaves the list unchanged, or succeeds on a free block `c` at position
`i`, and then the allocated blocks afterwards are those before `i`, the one new
block, and those after `i`, all old ones unchanged in start, size and owner;
`release_memory` either fails and leaves the list unchanged, or releases a block
`b` of the owner, and then the allocated blocks afterwards are the allocated
blocks before the call with `b` removed; `compact_memory` keeps the sizes and
owners of the allocated blocks, in order. -/
theorem allocated_blocks_frame (l : List MemoryBlock) (process_id : String) (size : Nat)
    (strategy : Char) (memory_start total_memory_size : Nat) :
    ((allocate_memory l process_id size strategy).2 = l ∨
      ∃ i c, l[i]? = some c ∧ c.allocated = false ∧
        (allocate_memory l process_id size strategy).1 =
          Report.allocated size process_id c.start_address ∧
        l.filter (fun x => x.allocated) =
          (l.take i).filter (fun x => x.allocated) ++
            (l.drop (i + 1)).filter (fun x => x.allocated) ∧
        (allocate_memory l process_id size strategy).2.filter (fun x => x.allocated) =
          (l.take i).filter (fun x => x.allocated) ++
            owned_at c.start_address size process_id ::
              (l.drop (i + 1)).filter (fun x => x.allocated)) ∧
    ((release_memory l process_id).2 = l ∨
      ∃ pre b post, l = pre ++ b :: post ∧ b.allocated = true ∧ b.process_id = process_id ∧
        (release_memory l process_id).1 =
          Report.released process_id b.start_address b.size ∧
        l.filter (fun x => x.allocated) =
          pre.filter (fun x => x.allocated) ++ b :: post.filter (fun x => x.allocated) ∧
        (release_memory l process_id).2.filter (fun x => x.allocated) =
          pre.filter (fun x => x.allocated) ++ post.filter (fun x => x.allocated)) ∧
    ((compact_memory memory_start total_memory_size l).filter fun x => x.allocated).map
        (fun x => (x.size, x.process_id)) =
      (l.filter fun x => x.allocated).map (fun x => (x.size, x.process_id)) := by
  refine ⟨?_, ?_, ?_⟩
  · cases hsel : select_fit l size strategy with
    | none => left; simp only [allocate_memory, hsel]
    | some r =>
      cases r with
      | none => left; simp only [allocate_memory, hsel]
      | some i =>
        right
        obtain ⟨c, hc, hf⟩ := select_fit_sound l size strategy i hsel
        have hres := allocate_memory_of_select l process_id size strategy i c hsel hc
        have hsplit := split_at_getElem l i c hc
        refine ⟨i, c, hc, hf.1, by rw [hres], ?_, ?_⟩
        · conv_lhs => rw [hsplit]
          simp [hf.1]
        · rw [hres]
          by_cases hlt : size < c.size
          · simp [hlt, claim_block, remainder_block, owned_at]
          · simp [hlt, claim_block, owned_at]
  · by_cases h : ∃ x ∈ l, x.allocated = true ∧ x.process_id = process_id
    · right
      obtain ⟨pre, b, post, e, hpre, hb1, hb2⟩ := exists_first_match process_id l h
      refine ⟨pre, b, post, e, hb1, hb2, ?_, ?_, ?_⟩
      · rw [e, release_memory_split process_id pre b post hpre ⟨hb1, hb2⟩]
      · rw [e]
        simp [hb1]
      · rw [e, release_memory_split process_id pre b post hpre ⟨hb1, hb2⟩]
        exact released_list_allocated pre b post
    · left
      have hnone := (release_from_none_iff process_id l none).mpr
        (fun b hb hbad => h ⟨b, hb, hbad⟩)
      simp only [release_memory, hnone]
  · have hall := compact_from_allocated l memory_start
    have hkeep : (compact_from l memory_start).1.filter (fun x => x.allocated) =
        (compact_from l memory_start).1 := List.filter_eq_self.mpr hall
    simp only [compact_memory]
    split_ifs with hlt
    · rw [List.filter_append, hkeep]
      simp [compact_from_fields]
    · rw [hkeep]
      exact compact_from_fields l memory_start

/-! ## Allocation followed by release -/

theorem noFreePair_suffix : ∀ (front back : List MemoryBlock) (pf : Bool),
    NoFreePair pf (front ++ back) → ∃ pf', NoFreePair pf' back := by
  intro front
  induction front with
  | nil => intro back pf h; exact ⟨pf, h⟩
  | cons b rest ih =>
    intro back pf h
    exact ih back _ h.2

theorem released_list_no_left (pre post : List MemoryBlock) (b : MemoryBlock)
    (hlast : ∀ p, pre.getLast? = some p → p.allocated = true) :
    released_list pre b post = pre ++ merge_next (freed_block b) post := by
  rcases eq_nil_or_snoc pre with rfl | ⟨pre0, p, rfl⟩
  · simp [released_list, merge_prev]
  · have hp : p.allocated = true := hlast p (by simp)
    simp [released_list, merge_prev, hp]

theorem restore_block (c : MemoryBlock) (hfree : c.allocated = false)
    (howner : c.process_id = "") :
    ({ start_address := c.start_address, size := c.size, allocated := false,
       process_id := "" } : MemoryBlock) = c := by
  cases c with
  | mk s n al p =>
    simp only [] at hfree howner
    subst hfree
    subst howner
    rfl

/-- C14, as the code has it.  Take a block list that is contiguous inside the
64-bit address space and has no two adjacent free blocks, and an allocation
`allocate_memory(owner, n, strategy)` that succeeds on the free block `c` at
position `i`, where `c` carries no owner and no allocated block in front of
position `i` already belongs to `owner`.  Then `release_memory(owner)` right
afterwards releases the new block and gives back exactly the list from before
the allocation. -/
theorem allocate_then_release_restores (l : List MemoryBlock) (process_id : String)
    (n : Nat) (strategy : Char) (i : Nat) (c : MemoryBlock) (a e : Nat)
    (hcont : Tiles a l e) (he : e < 2 ^ 64) (hfree : NoFreePair false l)
    (hsel : select_fit l n strategy = some (some i)) (hc : l[i]? = some c)
    (howner : c.process_id = "")
    (hnew : ∀ x ∈ l.take i, ¬ (x.allocated = true ∧ x.process_id = process_id)) :
    (release_memory (allocate_memory l process_id n strategy).2 process_id).2 = l := by
  obtain ⟨c0, hc0, hf⟩ := select_fit_sound l n strategy i hsel
  have hcc : c0 = c := by
    rw [hc] at hc0
    exact (Option.some.inj hc0).symm
  subst hcc
  have hsplit := split_at_getElem l i c0 hc
  have hsize : c0.size < 2 ^ 64 := by
    have hb := tiles_bounds l a e hcont c0 (List.getElem?_mem hc)
    omega
  rw [hsplit] at hfree
  obtain ⟨pf1, hsuf⟩ := noFreePair_suffix (l.take i) (c0 :: l.drop (i + 1)) false hfree
  have hpost : NoFreePair true (l.drop (i + 1)) := by simpa [hf.1] using hsuf.2
  have hlast : ∀ p, (l.take i).getLast? = some p → p.allocated = true := by
    intro p hp
    rcases eq_nil_or_snoc (l.take i) with hnil | ⟨pre0, q, hq⟩
    · rw [hnil] at hp
      simp at hp
    · rw [hq] at hp hfree
      have hqp : q = p := by simpa using hp
      subst hqp
      rw [List.append_assoc] at hfree
      obtain ⟨pf2, hsuf2⟩ := noFreePair_suffix pre0 ([q] ++ c0 :: l.drop (i + 1)) false hfree
      have h1 := hsuf2.2.1
      cases hqa : q.allocated with
      | true => rfl
      | false => exact absurd ⟨by simp [hqa], hf.1⟩ h1
  rw [allocate_memory_of_select l process_id n strategy i c0 hsel hc]
  simp only []
  rw [release_memory_split process_id (l.take i) (claim_block c0 process_id n) _ hnew
    ⟨rfl, rfl⟩]
  simp only []
  rw [released_list_no_left _ _ _ hlast]
  conv_rhs => rw [hsplit]
  congr 1
  by_cases hlt : n < c0.size
  · have hw : wrap (n + (c0.size - n)) = c0.size := by
      unfold wrap
      rw [Nat.add_sub_cancel' (Nat.le_of_lt hlt)]
      exact Nat.mod_eq_of_lt hsize
    simp only [if_pos hlt, List.singleton_append, merge_next, remainder_block, if_true,
      freed_block, claim_block, hw]
    rw [restore_block c0 hf.1 howner]
  · have hn : n = c0.size := by
      have h2 := hf.2
      omega
    have hback : freed_block (claim_block c0 process_id n) = c0 := by
      simp only [freed_block, claim_block, hn]
      exact restore_block c0 hf.1 howner
    simp only [if_neg hlt, List.nil_append, hback]
    cases hd : l.drop (i + 1) with
    | nil => rfl
    | cons x r =>
      rw [hd] at hpost
      have hx : ¬ x.allocated = false := fun hx => hpost.1 ⟨rfl, hx⟩
      simp only [merge_next, if_neg hx]

/-- C14 at a concrete list: 30 bytes for `P2` taken from the free block behind
`P1`, then released again. -/
theorem allocate_then_release_restores_witness :
    select_fit [owned_at 1000 20 "P1", free_at 1020 80] 30 'B' = some (some 1) ∧
    (release_memory (allocate_memory [owned_at 1000 20 "P1", free_at 1020 80] "P2" 30 'B').2
        "P2").2 = [owned_at 1000 20 "P1", free_at 1020 80] :=
  ⟨by decide,
   allocate_then_release_restores [owned_at 1000 20 "P1", free_at 1020 80] "P2" 30 'B' 1
     (free_at 1020 80) 1000 1100 ⟨rfl, rfl, rfl⟩ (by decide)
     (by simp [NoFreePair, owned_at, free_at]) (by decide) (by decide) (by decide)
     (by decide)⟩

/-- C14 as stated fails when the owner already holds an earlier block.  From a
100-byte arena, `RQ P1 20 F` leaves `[P1 [1000,1020), free [1020,1100)]`, a
contiguous list with no two adjacent free blocks.  `RQ P1 30 F` then succeeds on
the enclosing free block, at 1020, and `RL P1` releases the older block at 1000
instead: the list is not the one from before the allocation. -/
theorem allocate_then_release_counterexample :
    (initialize_memory 1000 100).map (fun s => (run s [Call.RQ "P1" 20 'F']).memory_list) =
      some [owned_at 1000 20 "P1", free_at 1020 80] ∧
    allocate_memory [owned_at 1000 20 "P1", free_at 1020 80] "P1" 30 'F' =
      (Report.allocated 30 "P1" 1020,
       [owned_at 1000 20 "P1", owned_at 1020 30 "P1", free_at 1050 50]) ∧
    release_memory [owned_at 1000 20 "P1", owned_at 1020 30 "P1", free_at 1050 50] "P1" =
      (Report.released "P1" 1000 20,
       [free_at 1000 20, owned_at 1020 30 "P1", free_at 1050 50]) ∧
    (release_memory (allocate_memory [owned_at 1000 20 "P1", free_at 1020 80] "P1" 30 'F').2
        "P1").2 ≠ [owned_at 1000 20 "P1", free_at 1020 80] := by
  decide

/-! ## The end-to-end scenario of the specification -/

theorem wrap_of_lt (x : Nat) (h : x < 2 ^ 64) : wrap x = x := by
  unfold wrap
  exact Nat.mod_eq_of_lt h

/-- C15. In a 100-byte arena that `malloc` placed at any address `arena` (ending
below `2 ^ 64`), the calls `RQ P1 20 F`, `RQ P2 30 B`, `RL P1`, `C` leave, after
each step in turn: `[P1 [0,20), free [20,100)]`;
`[P1 [0,20), P2 [20,50), free [50,100)]`;
`[free [0,20), P2 [20,50), free [50,100)]`; and `[P2 [0,30), free [30,100)]`,
all offsets counted from `arena`. -/
theorem scenario_trace (arena : Nat) (s₀ : State) (hfit : arena + 100 < 2 ^ 64)
    (hinit : initialize_memory arena 100 = some s₀) :
    (run s₀ [Call.RQ "P1" 20 'F']).memory_list =
      [owned_at arena 20 "P1", free_at (arena + 20) 80] ∧
    (run s₀ [Call.RQ "P1" 20 'F', Call.RQ "P2" 30 'B']).memory_list =
      [owned_at arena 20 "P1", owned_at (arena + 20) 30 "P2", free_at (arena + 50) 50] ∧
    (run s₀ [Call.RQ "P1" 20 'F', Call.RQ "P2" 30 'B', Call.RL "P1"]).memory_list =
      [free_at arena 20, owned_at (arena + 20) 30 "P2", free_at (arena + 50) 50] ∧
    (run s₀ [Call.RQ "P1" 20 'F', Call.RQ "P2" 30 'B', Call.RL "P1", Call.C]).memory_list =
      [owned_at arena 30 "P2", free_at (arena + 30) 70] := by
  unfold initialize_memory at hinit
  split_ifs at hinit with h0
  have hs := Option.some.inj hinit
  subst hs
  have hB : ('B' : Char) ≠ 'F' := by decide
  have w20 : wrap (arena + 20) = arena + 20 := wrap_of_lt _ (by omega)
  have w50 : wrap (arena + 20 + 30) = arena + 50 := by
    rw [wrap_of_lt _ (by omega)]
  have w30 : wrap (arena + 30) = arena + 30 := wrap_of_lt _ (by omega)
  have w100 : wrap (arena + 100) = arena + 100 := wrap_of_lt _ (by omega)
  have e1 : allocate_memory [free_at arena 100] "P1" 20 'F' =
      (Report.allocated 20 "P1" arena,
       [owned_at arena 20 "P1", free_at (arena + 20) 80]) := by
    simp [allocate_memory, select_fit, find_first_fit, find_first_fit_from, free_at,
      allocate_at, claim_block, remainder_block, owned_at, w20]
  have e2 : allocate_memory [owned_at arena 20 "P1", free_at (arena + 20) 80] "P2" 30 'B' =
      (Report.allocated 30 "P2" (arena + 20),
       [owned_at arena 20 "P1", owned_at (arena + 20) 30 "P2", free_at (arena + 50) 50]) := by
    simp [allocate_memory, select_fit, hB, find_best_fit, find_best_fit_from, free_at,
      allocate_at, claim_block, remainder_block, owned_at, w50, SIZE_MAX]
  have e3 : release_memory
      [owned_at arena 20 "P1", owned_at (arena + 20) 30 "P2", free_at (arena + 50) 50] "P1" =
      (Report.released "P1" arena 20,
       [free_at arena 20, owned_at (arena + 20) 30 "P2", free_at (arena + 50) 50]) := by
    simp [release_memory, release_from, merge_prev, merge_next, free_at, owned_at]
  have e4 : compact_memory arena 100
      [free_at arena 20, owned_at (arena + 20) 30 "P2", free_at (arena + 50) 50] =
      [owned_at arena 30 "P2", free_at (arena + 30) 70] := by
    have hlt : arena + 30 < arena + 100 := by omega
    have hsub : arena + 100 - (arena + 30) = 70 := by omega
    simp [compact_memory, compact_from, free_at, owned_at, w30, w100, hlt, hsub]
  refine ⟨?_, ?_, ?_, ?_⟩
  · show (allocate_memory [free_at arena 100] "P1" 20 'F').2 = _
    rw [e1]
  · show (allocate_memory (allocate_memory [free_at arena 100] "P1" 20 'F').2 "P2" 30 'B').2 = _
    rw [e1]
    simp only []
    rw [e2]
  · show (release_memory
      (allocate_memory (allocate_memory [free_at arena 100] "P1" 20 'F').2 "P2" 30 'B').2
      "P1").2 = _
    rw [e1]
    simp only []
    rw [e2]
    simp only []
    rw [e3]
  · show compact_memory arena 100 (release_memory
      (allocate_memory (allocate_memory [free_at arena 100] "P1" 20 'F').2 "P2" 30 'B').2
      "P1").2 = _
    rw [e1]
    simp only []
    rw [e2]
    simp only []
    rw [e3]
    simp only []
    rw [e4]

/-- C15 with the arena at address 1000. -/
theorem scenario_trace_witness :
    (run { memory_start := 1000, total_memory_size := 100, memory_list := [free_at 1000 100] }
        [Call.RQ "P1" 20 'F', Call.RQ "P2" 30 'B', Call.RL "P1", Call.C]).memory_list =
      [owned_at 1000 30 "P2", free_at 1030 70] :=
  (scenario_trace 1000
    { memory_start := 1000, total_memory_size := 100, memory_list := [free_at 1000 100] }
    (by decide) (by decide)).2.2.2

/-! ## Owners of allocated and free blocks -/

/-- An allocated block names an owner; a free block has the empty owner id. -/
def OwnerOk (b : MemoryBlock) : Prop :=
  (b.allocated = true → b.process_id ≠ "") ∧ (b.allocated = false → b.process_id = "")

theorem ownerOk_allocate_at (process_id : String) (size : Nat) (hpid : process_id ≠ "") :
    ∀ (l : List MemoryBlock) (i : Nat), (∀ b ∈ l, OwnerOk b) →
    ∀ b ∈ allocate_at l i process_id size, OwnerOk b := by
  intro l
  induction l with
  | nil => intro i _ b hb; simp [allocate_at] at hb
  | cons c rest ih =>
    intro i h b hb
    have hclaim : OwnerOk (claim_block c process_id size) :=
      ⟨fun _ => hpid, fun hbad => absurd hbad (by simp [claim_block])⟩
    have hrem : OwnerOk (remainder_block c size) :=
      ⟨fun hbad => absurd hbad (by simp [remainder_block]), fun _ => rfl⟩
    cases i with
    | zero =>
      simp only [allocate_at] at hb
      split_ifs at hb
      · rcases List.mem_cons.mp hb with rfl | hb
        · exact hclaim
        · rcases List.mem_cons.mp hb with rfl | hb
          · exact hrem
          · exact h b (List.mem_cons_of_mem _ hb)
      · rcases List.mem_cons.mp hb with rfl | hb
        · exact hclaim
        · exact h b (List.mem_cons_of_mem _ hb)
    | succ i =>
      simp only [allocate_at] at hb
      rcases List.mem_cons.mp hb with rfl | hb
      · exact h b (List.mem_cons_self _ _)
      · exact ih i (fun y hy => h y (List.mem_cons_of_mem _ hy)) b hb

theorem ownerOk_merge_next (cur : MemoryBlock) (hcur : OwnerOk cur) :
    ∀ post : List MemoryBlock, (∀ x ∈ post, OwnerOk x) →
    ∀ x ∈ merge_next cur post, OwnerOk x := by
  intro post hpost x hx
  cases post with
  | nil =>
    simp only [merge_next, List.mem_singleton] at hx
    rw [hx]
    exact hcur
  | cons n r =>
    simp only [merge_next] at hx
    split_ifs at hx
    · rcases List.mem_cons.mp hx with rfl | hx
      · exact hcur
      · exact hpost x (List.mem_cons_of_mem _ hx)
    · rcases List.mem_cons.mp hx with rfl | hx
      · exact hcur
      · exact hpost x hx

theorem ownerOk_merge_prev (prev : Option MemoryBlock) (cur : MemoryBlock)
    (hprev : ∀ p, prev = some p → OwnerOk p) (hcur : OwnerOk cur) :
    (∀ x ∈ (merge_prev prev cur).1, OwnerOk x) ∧ OwnerOk (merge_prev prev cur).2 := by
  cases prev with
  | none => exact ⟨by simp [merge_prev], hcur⟩
  | some p =>
    have hp := hprev p rfl
    simp only [merge_prev]
    split_ifs
    · exact ⟨by simp, hp⟩
    · refine ⟨?_, hcur⟩
      intro x hx
      simp only [List.mem_singleton] at hx
      rw [hx]
      exact hp

theorem ownerOk_released_list (pre post : List MemoryBlock) (b : MemoryBlock)
    (h : ∀ x ∈ pre ++ b :: post, OwnerOk x) :
    ∀ x ∈ released_list pre b post, OwnerOk x := by
  have hfreed : OwnerOk (freed_block b) :=
    ⟨fun hbad => absurd hbad (by simp [freed_block]), fun _ => rfl⟩
  have hlast : ∀ p, pre.getLast? = some p → OwnerOk p := by
    intro p hp
    exact h p (List.mem_append_left _ (List.mem_of_getLast?_eq_some hp))
  obtain ⟨h1, h2⟩ := ownerOk_merge_prev pre.getLast? (freed_block b) hlast hfreed
  have hpost : ∀ x ∈ post, OwnerOk x := fun x hx =>
    h x (List.mem_append_right _ (List.mem_cons_of_mem _ hx))
  intro x hx
  simp only [released_list] at hx
  rcases List.mem_append.mp hx with hx | hx
  · exact h x (List.mem_append_left _ (List.dropLast_subset pre hx))
  · rcases List.mem_append.mp hx with hx | hx
    · exact h1 x hx
    · exact ownerOk_merge_next _ h2 post hpost x hx

theorem ownerOk_compact_from : ∀ (l : List MemoryBlock) (a : Nat),
    (∀ x ∈ l, OwnerOk x) → ∀ x ∈ (compact_from l a).1, OwnerOk x := by
  intro l
  induction l with
  | nil => intro a _ x hx; simp [compact_from] at hx
  | cons cur rest ih =>
    intro a h x hx
    have hrest : ∀ y ∈ rest, OwnerOk y := fun y hy => h y (List.mem_cons_of_mem _ hy)
    simp only [compact_from] at hx
    split_ifs at hx with hc
    · rcases List.mem_cons.mp hx with rfl | hx
      · exact ⟨fun _ => (h cur (List.mem_cons_self _ _)).1 hc,
          fun hbad => absurd hbad (by simp)⟩
      · exact ih _ hrest x hx
    · exact ih _ hrest x hx

theorem ownerOk_step (s : State) (call : Call) (h : ∀ b ∈ s.memory_list, OwnerOk b)
    (hcall : ∀ process_id size strategy, call = Call.RQ process_id size strategy →
      process_id ≠ "") :
    ∀ b ∈ (step s call).memory_list, OwnerOk b := by
  cases call with
  | RQ process_id size strategy =>
    show ∀ b ∈ (allocate_memory s.memory_list process_id size strategy).2, OwnerOk b
    rcases allocate_memory_cases s.memory_list process_id size strategy with
      e | ⟨i, c, _, _, e⟩
    · rw [e]
      exact h
    · rw [e]
      exact ownerOk_allocate_at process_id size (hcall process_id size strategy rfl) _ i h
  | RL process_id =>
    show ∀ b ∈ (release_memory s.memory_list process_id).2, OwnerOk b
    by_cases hex : ∃ x ∈ s.memory_list, x.allocated = true ∧ x.process_id = process_id
    · obtain ⟨pre, b0, post, e, hpre, hb1, hb2⟩ := exists_first_match process_id _ hex
      rw [e, release_memory_split process_id pre b0 post hpre ⟨hb1, hb2⟩]
      rw [e] at h
      exact ownerOk_released_list pre post b0 h
    · have hnone := (release_from_none_iff process_id s.memory_list none).mpr
        (fun b hb hbad => hex ⟨b, hb, hbad⟩)
      simp only [release_memory, hnone]
      exact h
  | C =>
    show ∀ b ∈ compact_memory s.memory_start s.total_memory_size s.memory_list, OwnerOk b
    have hc := ownerOk_compact_from s.memory_list s.memory_start h
    simp only [compact_memory]
    split_ifs
    · intro b hb
      rcases List.mem_append.mp hb with hb | hb
      · exact hc b hb
      · simp only [List.mem_singleton] at hb
        rw [hb]
        exact ⟨fun hbad => absurd hbad (by simp), fun _ => rfl⟩
    · exact hc

theorem ownerOk_run : ∀ (calls : List Call) (s : State),
    (∀ b ∈ s.memory_list, OwnerOk b) →
    (∀ process_id size strategy, Call.RQ process_id size strategy ∈ calls →
      process_id ≠ "") →
    ∀ b ∈ (run s calls).memory_list, OwnerOk b := by
  intro calls
  induction calls with
  | nil => intro s h _; exact h
  | cons call rest ih =>
    intro s h hcalls
    refine ih (step s call) (ownerOk_step s call h ?_) ?_
    · intro process_id size strategy hc
      exact hcalls process_id size strategy (by rw [hc]; exact List.mem_cons_self _ _)
    · intro process_id size strategy hc
      exact hcalls process_id size strategy (List.mem_cons_of_mem _ hc)

/-- C16. Let `initialize_memory` build the initial state.  After any finite
sequence of `allocate_memory`, `release_memory` and `compact_memory` calls in
which every allocation names an owner id of 1 to 9 characters (every prefix of
such a sequence is such a sequence, so this is the state after each call),
every allocated block has a non-empty owner id and every free block has the
empty owner id. -/
theorem owners_well_formed (arena size : Nat) (s₀ : State) (calls : List Call)
    (hinit : initialize_memory arena size = some s₀)
    (hown : ∀ process_id sz strategy, Call.RQ process_id sz strategy ∈ calls →
      1 ≤ process_id.length ∧ process_id.length ≤ 9) :
    ∀ b ∈ (run s₀ calls).memory_list,
      (b.allocated = true → b.process_id ≠ "") ∧
      (b.allocated = false → b.process_id = "") := by
  unfold initialize_memory at hinit
  split_ifs at hinit with h0
  have hs := Option.some.inj hinit
  have hstart : ∀ b ∈ s₀.memory_list, OwnerOk b := by
    rw [← hs]
    intro b hb
    simp only [List.mem_singleton] at hb
    rw [hb]
    exact ⟨fun hbad => absurd hbad (by simp), fun _ => rfl⟩
  refine ownerOk_run calls s₀ hstart ?_
  intro process_id sz strategy hc hempty
  have hlen := (hown process_id sz strategy hc).1
  rw [hempty] at hlen
  exact absurd hlen (by decide)

/-- C16 on the scenario of the specification: the block left allocated after
`RQ P1 20 F`, `RQ P2 30 B`, `RL P1`, `C` names an owner. -/
theorem owners_well_formed_witness :
    initialize_memory 1000 100 =
      some { memory_start := 1000, total_memory_size := 100,
             memory_list := [free_at 1000 100] } ∧
    ((owned_at 1000 30 "P2").allocated = true → (owned_at 1000 30 "P2").process_id ≠ "") :=
  ⟨by decide,
   (owners_well_formed 1000 100
      { memory_start := 1000, total_memory_size := 100, memory_list := [free_at 1000 100] }
      [Call.RQ "P1" 20 'F', Call.RQ "P2" 30 'B', Call.RL "P1", Call.C]
      (by decide)
      (by
        intro process_id sz strategy hc
        simp only [List.mem_cons, Call.RQ.injEq, List.mem_singleton, reduceCtorEq,
          or_false, List.not_mem_nil] at hc
        rcases hc with ⟨rfl, _, _⟩ | ⟨rfl, _, _⟩ <;> decide)
      (owned_at 1000 30 "P2") (by decide)).1⟩

end Allocator
